import Mathlib

/-
Verification of the parsing/normalization core of the YumeRobo repository.

The TypeScript sources are shallowly embedded over List Char: every string is
a list of characters, every JavaScript string helper (indexOf, split, trim,
replace, toLowerCase) is given an executable Lean counterpart, and each parser
from the repository is translated function by function.  Loop constructs from
the sources are embedded with an explicit fuel argument that is always large
enough (fuel bounds are proved below), so all definitions compute by rfl and
decide.
-/

set_option maxHeartbeats 1000000
set_option maxRecDepth 10000

abbrev Str := List Char

/-- Whitespace class used by JavaScript trim and the regex class backslash-s;
modelled by the common members: space, tab, newline, carriage return,
vertical tab, form feed and no-break space. -/
def jsWS (c : Char) : Bool :=
  c = ' ' || c = '\t' || c = '\n' || c = '\r' || c = '\x0b' || c = '\x0c' || c = ' '

/-- JavaScript String.prototype.trim over a character list. -/
def trimL (s : Str) : Str :=
  ((s.dropWhile jsWS).reverse.dropWhile jsWS).reverse

/-- Index of the first occurrence of pat as a contiguous sublist of s
(JavaScript String.prototype.indexOf with fromIndex zero). -/
def firstIdx (pat : Str) (s : Str) : Option Nat :=
  if pat.isPrefixOf s then some 0
  else
    match s with
    | [] => none
    | _ :: cs => (firstIdx pat cs).map (· + 1)

/-- Character-wise lower casing (models String.prototype.toLowerCase; the
inputs of interest are ASCII tags, where the two functions agree). -/
def lowerL (s : Str) : Str := s.map Char.toLower

/-- JavaScript String.prototype.split with a single-character separator. -/
def splitOnChar (sep : Char) : Str → List Str
  | [] => [[]]
  | c :: cs =>
    if c = sep then [] :: splitOnChar sep cs
    else
      match splitOnChar sep cs with
      | [] => [[c]]
      | h :: t => (c :: h) :: t

/- ----------------------------------------------------------------
Torrent decoder, from src/scripts/lib/torrent.ts.

The file-system read and the bencode decode are performed by external
libraries; parseTorrent is embedded from the point where the decoded
dictionary is in hand, exactly as typed by interface BencodedTorrent.
A JavaScript truthiness test on a number field (decoded.info.length)
is false for an absent field and for the value zero.
---------------------------------------------------------------- -/

structure TorrentFile where
  path : Str
  size : Nat
  deriving DecidableEq, Repr

structure TorrentEntry where
  name : Str
  files : List TorrentFile
  deriving DecidableEq, Repr

/-- The decoded bencode dictionary of a .torrent file (the info part),
after every byte string has been decoded to text by toStr. -/
structure BencodedTorrentInfo where
  name : Str
  files : Option (List (List Str × Nat))
  length : Option Nat
  deriving DecidableEq, Repr

/-- Embedding of parseTorrent from src/scripts/lib/torrent.ts: the name is
decoded, then a multi-file torrent maps each entry to its slash-joined path
and declared length, else a truthy (present and non-zero) single-file length
produces one file named after the torrent, else the file list stays empty. -/
def parseTorrent (decoded : BencodedTorrentInfo) : TorrentEntry :=
  let name := decoded.name
  let files : List TorrentFile :=
    match decoded.files with
    | some fs => fs.map (fun f => { path := List.intercalate ['/'] f.1, size := f.2 })
    | none =>
      match decoded.length with
      | some n => if n ≠ 0 then [{ path := name, size := n }] else []
      | none => []
  { name := name, files := files }

/- ----------------------------------------------------------------
BBCode extractor, from src/scripts/lib/bbcode.ts.

extractOutermostQuotes repeatedly finds the next opening tag with the
case-insensitive regular expression for open quote or spoiler tags, then
walks forward with indexOf over the lower-cased remainder, counting nested
tags of the same kind, to locate the matching closing tag.  The two loops
are embedded with fuel arguments; the wrappers supply fuel larger than the
number of possible iterations (each iteration strictly advances).
---------------------------------------------------------------- -/

inductive TagKind where
  | quote
  | spoiler
  deriving DecidableEq, Repr

def kindStr : TagKind → Str
  | .quote => ['q', 'u', 'o', 't', 'e']
  | .spoiler => ['s', 'p', 'o', 'i', 'l', 'e', 'r']

/-- Lower-cased opening search string, as built in the source: a bracket
followed by the tag name (no equals sign). -/
def openPat (k : TagKind) : Str := '[' :: kindStr k

/-- Lower-cased closing tag string: bracket, slash, tag name, bracket. -/
def closePat (k : TagKind) : Str := '[' :: '/' :: (kindStr k ++ [']'])

/-- Case-insensitive test that s starts with the (lower-case) pattern,
character by character, as the ignore-case regex flag does for ASCII. -/
def ciStarts : Str → Str → Bool
  | [], _ => true
  | _ :: _, [] => false
  | p :: ps, c :: cs => Char.toLower c = p && ciStarts ps cs

/-- Attempt to read, directly after an opening bracket, a tag of kind k: the
tag name (case-insensitively), an equals sign, a non-empty title free of
closing brackets, and the closing bracket.  Returns the kind, the title text
taken verbatim from the input, and the total matched length. -/
def tryKindTag (k : TagKind) (rest : Str) : Option (TagKind × Str × Nat) :=
  if ciStarts (kindStr k) rest then
    match rest.drop (kindStr k).length with
    | '=' :: r3 =>
      let ttl := r3.takeWhile (fun c => c ≠ ']')
      if ttl ≠ [] ∧ (r3.drop ttl.length).head? = some ']' then
        some (k, ttl, 1 + (kindStr k).length + 1 + ttl.length + 1)
      else none
    | _ => none
  else none

/-- Match of the opening-tag regex at the head of the string; quote is tried
before spoiler, as in the alternation of the source pattern. -/
def matchOpenHere (s : Str) : Option (TagKind × Str × Nat) :=
  match s with
  | '[' :: rest => (tryKindTag TagKind.quote rest).orElse (fun _ => tryKindTag TagKind.spoiler rest)
  | _ => none

/-- Leftmost match of the opening-tag regex: position, kind, title, length. -/
def findFirstOpen : Str → Option (Nat × TagKind × Str × Nat)
  | [] => none
  | c :: cs =>
    match matchOpenHere (c :: cs) with
    | some (k, ttl, len) => some (0, k, ttl, len)
    | none => (findFirstOpen cs).map (fun x => (x.1 + 1, x.2))

/-- Fueled embedding of the depth-counting while loop of the source: low is
the lower-cased remainder, and the loop keeps the absolute scan position,
comparing the next same-kind opening occurrence with the next closing
occurrence.  Returns the index of the matching closing tag together with the
final position just past it, or none when the closers run out. -/
def scanCloseF (low opat cpat : Str) : Nat → Nat → Nat → Option (Nat × Nat)
  | 0, _, _ => none
  | fuel + 1, depth, pos =>
    if pos < low.length ∧ 0 < depth then
      match (firstIdx cpat (low.drop pos)).map (· + pos) with
      | none => none
      | some nextClose =>
        match (firstIdx opat (low.drop pos)).map (· + pos) with
        | some nextOpen =>
          if nextOpen < nextClose then
            scanCloseF low opat cpat fuel (depth + 1) (nextOpen + opat.length)
          else
            if depth = 1 then some (nextClose, nextClose + cpat.length)
            else scanCloseF low opat cpat fuel (depth - 1) (nextClose + cpat.length)
        | none =>
          if depth = 1 then some (nextClose, nextClose + cpat.length)
          else scanCloseF low opat cpat fuel (depth - 1) (nextClose + cpat.length)
    else none

/-- Depth-counting scan with sufficient fuel (one more than the length). -/
def scanClose (low opat cpat : Str) (depth pos : Nat) : Option (Nat × Nat) :=
  scanCloseF low opat cpat (low.length + 1) depth pos

/-- Fueled embedding of the outer while-true loop of extractOutermostQuotes:
find the next opening tag, scan for its matching closer, and either emit the
block and continue past the closer, or skip past the unmatched opener. -/
def extractF : Nat → Str → List (Str × Str)
  | 0, _ => []
  | fuel + 1, remaining =>
    match findFirstOpen remaining with
    | none => []
    | some (idx, k, title, mlen) =>
      let startIndex := idx + mlen
      match scanClose (lowerL remaining) (openPat k) (closePat k) 1 startIndex with
      | some (endIndex, posAfter) =>
        (trimL title, (remaining.drop startIndex).take (endIndex - startIndex)) ::
          extractF fuel (remaining.drop posAfter)
      | none => extractF fuel (remaining.drop startIndex)

/-- Embedding of extractOutermostQuotes from src/scripts/lib/bbcode.ts. -/
def extractOutermostQuotes (input : Str) : List (Str × Str) :=
  extractF (input.length + 1) input


/- ----------------------------------------------------------------
Document grammar for balanced quote/spoiler markup.

A BDoc is a forest of raw text segments and nested tagged blocks; rendering
writes the lower-case tag syntax.  Well-formedness constrains text to be
free of opening brackets and titles to be non-empty and bracket-free, so
rendered documents are balanced inputs in the sense of the specification.
The refinement theorems below prove that extractOutermostQuotes on a
rendered document returns exactly its outermost blocks.
---------------------------------------------------------------- -/

inductive BDoc where
  | nil : BDoc
  | txt : Str → BDoc → BDoc
  | blk : TagKind → Str → BDoc → BDoc → BDoc
  deriving DecidableEq, Repr

/-- Rendered opening tag: bracket, tag name, equals sign, title, bracket. -/
def openTagOf (k : TagKind) (ttl : Str) : Str :=
  '[' :: (kindStr k ++ ('=' :: (ttl ++ [']'])))

def renderDoc : BDoc → Str
  | .nil => []
  | .txt t d => t ++ renderDoc d
  | .blk k ttl inner rest =>
      openTagOf k ttl ++ (renderDoc inner ++ (closePat k ++ renderDoc rest))

def wfText (t : Str) : Bool := t.all (fun c => c ≠ '[')

def wfTitle (t : Str) : Bool := t ≠ [] && t.all (fun c => c ≠ '[' && c ≠ ']')

def wfDoc : BDoc → Bool
  | .nil => true
  | .txt t d => wfText t && wfDoc d
  | .blk _ ttl inner rest => wfTitle ttl && wfDoc inner && wfDoc rest

/-- Outermost blocks of a document, in order: trimmed title paired with the
verbatim rendering of the nested content. -/
def outerBlocks : BDoc → List (Str × Str)
  | .nil => []
  | .txt _ d => outerBlocks d
  | .blk _ ttl inner rest => (trimL ttl, renderDoc inner) :: outerBlocks rest

/- ----------------------------------------------------------------
MediaInfo parser, from src/src/lib/utils/mediainfo-parser.ts.

The report text is normalized (escaped newlines, CR/LF, the stray two-byte
no-break-space artifact), trimmed, split into blank-line-separated blocks,
and each block is parsed into a header (base name plus optional stream
index) and an ordered key/value map in which a repeated key aggregates into
an ordered array.  Global regex replacements and the block splitter are
embedded with fuel, as every step consumes at least one character.
---------------------------------------------------------------- -/

inductive MIVal where
  | str : Str → MIVal
  | arr : List Str → MIVal
  deriving DecidableEq, Repr

abbrev MIData := List (Str × MIVal)

structure MediaInfoSection where
  header : Str
  base : Str
  index : Option Nat
  data : MIData
  deriving DecidableEq, Repr

/-- Insertion-ordered mapping from base section name to sections. -/
abbrev MediaInfoParsed := List (Str × List MediaInfoSection)

/-- Fueled driver for a global leftmost non-overlapping regex replacement;
the matcher returns the consumed length (always positive) and replacement. -/
def replaceAllF (m : Str → Option (Nat × Str)) : Nat → Str → Str
  | 0, s => s
  | _ + 1, [] => []
  | f + 1, c :: cs =>
    match m (c :: cs) with
    | some (len, rep) => rep ++ replaceAllF m f ((c :: cs).drop len)
    | none => c :: replaceAllF m f cs

def replaceAll (m : Str → Option (Nat × Str)) (s : Str) : Str :=
  replaceAllF m s.length s

/-- Matcher for the literal two-character escape backslash-n. -/
def mEsc (s : Str) : Option (Nat × Str) :=
  if ['\\', 'n'].isPrefixOf s then some (2, ['\n']) else none

/-- Matcher for a carriage return with optional following line feed. -/
def mCRLF : Str → Option (Nat × Str)
  | '\r' :: '\n' :: _ => some (2, ['\n'])
  | '\r' :: _ => some (1, ['\n'])
  | _ => none

/-- Matcher for the two-character UTF-8 no-break-space artifact. -/
def mNBSP (s : Str) : Option (Nat × Str) :=
  if ['Â', ' '].isPrefixOf s then some (2, [' ']) else none

def looksEscaped (s : Str) : Bool := (firstIdx ['\\', 'n'] s).isSome

/-- Length of the block separator regex match at the head of the string:
a newline followed by greedy whitespace that ends with at least one more
newline; the match extends to the last newline of the whitespace run. -/
def sepAt : Str → Option Nat
  | '\n' :: rest =>
    let run := rest.takeWhile jsWS
    let r2 := run.reverse.dropWhile (fun c => c ≠ '\n')
    if r2.length = 0 then none else some (1 + r2.length)
  | _ => none

def firstSep : Str → Option (Nat × Nat)
  | [] => none
  | c :: cs =>
    match sepAt (c :: cs) with
    | some l => some (0, l)
    | none => (firstSep cs).map (fun p => (p.1 + 1, p.2))

def splitBlocksF : Nat → Str → List Str
  | 0, s => [s]
  | f + 1, s =>
    match firstSep s with
    | none => [s]
    | some (i, l) => s.take i :: splitBlocksF f (s.drop (i + l))

def splitBlocks (s : Str) : List Str := splitBlocksF (s.length + 1) s

def natOfDigits (ds : Str) : Nat :=
  ds.foldl (fun acc c => acc * 10 + (c.toNat - 48)) 0

/-- Header regex: a lazy base group, optional whitespace, and an optional
trailing hash-digits group anchored at the end; equivalently, when the
header ends in a hash followed by one or more digits (and the part before
the hash is non-empty), that suffix is the stream index. -/
def headerParse (h : Str) : Str × Option Nat :=
  let rev := h.reverse
  let digs := rev.takeWhile Char.isDigit
  match rev.drop digs.length with
  | '#' :: rest =>
    if digs.length = 0 ∨ rest.length = 0 then (trimL h, none)
    else (trimL rest.reverse, some (natOfDigits digs.reverse))
  | _ => (trimL h, none)

/-- Split a data line at its first colon: trimmed key, trimmed remainder
re-joined on colons.  Lines without a colon or with an empty key yield
nothing, as the source skips them. -/
def lineKV (line : Str) : Option (Str × Str) :=
  if line.contains ':' then
    match splitOnChar ':' line with
    | [] => none
    | rawKey :: rest =>
      let key := trimL rawKey
      let value := trimL (List.intercalate [':'] rest)
      if key = [] then none else some (key, value)
  else none

def lookupKV (d : MIData) (k : Str) : Option MIVal :=
  (d.find? (fun e => e.1 = k)).map (fun e => e.2)

def updateKV (d : MIData) (k : Str) (v : MIVal) : MIData :=
  d.map (fun e => if e.1 = k then (k, v) else e)

/-- Store one key/value pair: a fresh key is appended, a repeated key turns
its value into (or extends) an ordered array, in place. -/
def pushKV (d : MIData) (k : Str) (v : Str) : MIData :=
  match lookupKV d k with
  | none => d ++ [(k, MIVal.str v)]
  | some (MIVal.str v0) => updateKV d k (MIVal.arr [v0, v])
  | some (MIVal.arr vs) => updateKV d k (MIVal.arr (vs ++ [v]))

def buildDataKV (entries : List (Str × Str)) : MIData :=
  entries.foldl (fun d e => pushKV d e.1 e.2) []

def buildData (dataLines : List Str) : MIData :=
  dataLines.foldl (fun d line =>
    match lineKV line with
    | none => d
    | some (k, v) => pushKV d k v) []

def lookupParsed (p : MediaInfoParsed) (k : Str) : Option (List MediaInfoSection) :=
  (p.find? (fun e => e.1 = k)).map (fun e => e.2)

def keysOf (p : MediaInfoParsed) : List Str := p.map (fun e => e.1)

def appendParsed (p : MediaInfoParsed) (k : Str) (sec : MediaInfoSection) : MediaInfoParsed :=
  match lookupParsed p k with
  | none => p ++ [(k, [sec])]
  | some secs => p.map (fun e => if e.1 = k then (k, secs ++ [sec]) else e)

def processBlock (acc : MediaInfoParsed) (block : Str) : MediaInfoParsed :=
  let lines := ((splitOnChar '\n' block).map trimL).filter (fun l => l ≠ [])
  match lines with
  | [] => acc
  | header :: dataLines =>
    let bp := headerParse header
    appendParsed acc bp.1
      { header := header, base := bp.1, index := bp.2, data := buildData dataLines }

/-- Embedding of parseMediaInfo from src/src/lib/utils/mediainfo-parser.ts. -/
def parseMediaInfo (text : Str) : MediaInfoParsed :=
  if text = [] then []
  else
    let t0 := if looksEscaped text then replaceAll mEsc text else text
    let norm := trimL (replaceAll mNBSP (replaceAll mCRLF t0))
    (splitBlocks norm).foldl processBlock []

/- Structured projection, from toStructured in the same file. -/

structure GeneralRec where
  file_name : Option Str
  format : Option Str
  duration : Option Str
  file_size : Option Str
  bit_rate : Option Str
  deriving DecidableEq, Repr

structure VideoRec where
  format : Option Str
  format_profile : Option Str
  codec : Option Str
  width : Option Str
  height : Option Str
  bit_depth : Option Str
  hdr_format : Option Str
  transfer_characteristics : Option Str
  frame_rate : Option Str
  bit_rate : Option Str
  deriving DecidableEq, Repr

structure AudioRec where
  format : Option Str
  format_profile : Option Str
  channels : Option Str
  bit_rate : Option Str
  title : Option Str
  language : Option Str
  commercial_name : Option Str
  deriving DecidableEq, Repr

structure TextRec where
  format : Option Str
  title : Option Str
  language : Option Str
  deriving DecidableEq, Repr

structure MediaInfoStructured where
  general : Option GeneralRec
  video : Option (List VideoRec)
  audio : Option (List AudioRec)
  text : Option (List TextRec)
  deriving DecidableEq, Repr

/-- First string value of a data field; a falsy (absent or empty) value is
absent, and an aggregated array contributes its first element. -/
def getFirst : Option MIVal → Option Str
  | none => none
  | some (MIVal.str v) => if v = [] then none else some v
  | some (MIVal.arr vs) => vs.head?

def mkGeneralRec (d : MIData) : GeneralRec :=
  { file_name := getFirst (lookupKV d "Complete name".data)
    format := getFirst (lookupKV d "Format".data)
    duration := getFirst (lookupKV d "Duration".data)
    file_size := getFirst (lookupKV d "File size".data)
    bit_rate := getFirst (lookupKV d "Overall bit rate".data) }

def mkVideoRec (d : MIData) : VideoRec :=
  { format := getFirst (lookupKV d "Format".data)
    format_profile := getFirst (lookupKV d "Format profile".data)
    codec := getFirst (lookupKV d "Codec ID".data)
    width := getFirst (lookupKV d "Width".data)
    height := getFirst (lookupKV d "Height".data)
    bit_depth := getFirst (lookupKV d "Bit depth".data)
    hdr_format := getFirst (lookupKV d "HDR format".data)
    transfer_characteristics := getFirst (lookupKV d "Transfer characteristics".data)
    frame_rate := getFirst (lookupKV d "Frame rate".data)
    bit_rate := getFirst (lookupKV d "Bit rate".data) }

def mkAudioRec (d : MIData) : AudioRec :=
  { format := getFirst (lookupKV d "Format".data)
    format_profile := getFirst (lookupKV d "Format profile".data)
    channels := getFirst (lookupKV d "Channel(s)".data)
    bit_rate := getFirst (lookupKV d "Bit rate".data)
    title := getFirst (lookupKV d "Title".data)
    language := getFirst (lookupKV d "Language".data)
    commercial_name := getFirst (lookupKV d "Commercial name".data) }

def mkTextRec (d : MIData) : TextRec :=
  { format := getFirst (lookupKV d "Format".data)
    title := getFirst (lookupKV d "Title".data)
    language := getFirst (lookupKV d "Language".data) }

/-- Embedding of toStructured: General projects its first section, Video
maps over all Video sections, Audio and Text append the sections of any
base name beginning with the hash-suffixed spelling to the plain ones. -/
def toStructured (parsed : MediaInfoParsed) : MediaInfoStructured :=
  let general := (lookupParsed parsed "General".data).bind List.head?
  let videos := (lookupParsed parsed "Video".data).getD []
  let audios := ((lookupParsed parsed "Audio".data).getD []) ++
    (((keysOf parsed).filter (fun k => "Audio #".data.isPrefixOf k)).flatMap
      (fun k => (lookupParsed parsed k).getD []))
  let texts := ((lookupParsed parsed "Text".data).getD []) ++
    (((keysOf parsed).filter (fun k => "Text #".data.isPrefixOf k)).flatMap
      (fun k => (lookupParsed parsed k).getD []))
  { general := general.map (fun sec => mkGeneralRec sec.data)
    video := if videos.length = 0 then none
      else some (videos.map (fun sec => mkVideoRec sec.data))
    audio := if audios.length = 0 then none
      else some (audios.map (fun sec => mkAudioRec sec.data))
    text := if texts.length = 0 then none
      else some (texts.map (fun sec => mkTextRec sec.data)) }

/- Summary heuristic, from the same file. -/

def natRepr (n : Nat) : Str := (Nat.repr n).data

def upperL (s : Str) : Str := s.map Char.toUpper

def containsSub (s pat : Str) : Bool := (firstIdx pat s).isSome

def jsTruthyS : Option Str → Bool
  | some l => l ≠ []
  | none => false

/-- JavaScript String.prototype.replace with a plain string pattern:
only the first occurrence is replaced. -/
def replaceFirst (pat rep s : Str) : Str :=
  match firstIdx pat s with
  | none => s
  | some i => s.take i ++ rep ++ s.drop (i + pat.length)

def parseChannels (channelStr : Option Str) : Str :=
  match channelStr with
  | none => []
  | some cs =>
    if cs = [] then []
    else
      let ds := cs.filter Char.isDigit
      if ds = [] then cs
      else
        match natOfDigits ds with
        | 1 => "1.0".data
        | 2 => "2.0".data
        | 6 => "5.1".data
        | 7 => "6.1".data
        | 8 => "7.1".data
        | n => natRepr n ++ "ch".data

def getResolution (height : Option Str) : Str :=
  match height with
  | none => []
  | some h0 =>
    if h0 = [] then []
    else
      let ds := h0.filter Char.isDigit
      if ds = [] then []
      else
        let h := natOfDigits ds
        if h ≥ 2160 then "4K".data
        else if h ≥ 1080 then "1080p".data
        else if h ≥ 720 then "720p".data
        else if h ≥ 576 then "576p".data
        else if h ≥ 480 then "480p".data
        else natRepr h ++ "p".data

def transferFallback (tc : Option Str) : Str :=
  let transfer := lowerL (tc.getD [])
  if containsSub transfer "pq".data || containsSub transfer "smpte st 2084".data then
    "HDR10".data
  else if containsSub transfer "hlg".data then "HLG".data
  else []

/-- Embedding of getHDRInfo: an explicit (truthy) HDR-format label is
classified by keyword, in order dolby vision, hdr10 plus, hdr10, hlg, and
otherwise generically; without a label the transfer characteristics decide
between HDR10 and HLG. -/
def getHDRInfo (video : Option (List VideoRec)) : Str :=
  match video with
  | none => []
  | some [] => []
  | some (v :: _) =>
    match v.hdr_format with
    | some hf =>
      if hf ≠ [] then
        if containsSub (lowerL hf) "dolby vision".data then "DV".data
        else if containsSub (lowerL hf) "hdr10+".data then "HDR10+".data
        else if containsSub (lowerL hf) "hdr10".data then "HDR10".data
        else if containsSub (lowerL hf) "hlg".data then "HLG".data
        else "HDR".data
      else transferFallback v.transfer_characteristics
    | none => transferFallback v.transfer_characteristics

def getSubtitleLanguages (texts : Option (List TextRec)) : List Str :=
  match texts with
  | none => []
  | some ts =>
    if ts.length = 0 then []
    else
      (ts.foldl (fun (acc : List Str) t =>
        match t.language with
        | none => acc
        | some lg =>
          if lg ≠ [] then
            let lang := trimL ((splitOnChar '(' lg).headD [])
            if lang ∈ acc then acc else acc ++ [lang]
          else acc) [])

def audioFormatOf (fmtOrig : Str) : Str :=
  let fmt := upperL fmtOrig
  if containsSub fmt "E-AC-3".data || containsSub fmt "EAC3".data then "DD+".data
  else if containsSub fmt "AC-3".data || fmt = "AC3".data then "DD".data
  else if containsSub fmt "AAC".data then "AAC".data
  else if containsSub fmt "FLAC".data then "FLAC".data
  else if containsSub fmt "OPUS".data then "Opus".data
  else if containsSub fmt "TRUEHD".data then "TrueHD".data
  else if containsSub fmt "DTS".data then "DTS".data
  else fmtOrig

def audioDescOf (a : AudioRec) : Str :=
  let base :=
    match a.commercial_name with
    | some cn =>
      if containsSub (lowerL cn) "atmos".data then "Atmos".data
      else if containsSub (lowerL cn) "truehd".data then "TrueHD".data
      else if containsSub (lowerL cn) "dts".data then
        (if containsSub cn "HD".data then "DTS-HD MA".data else "DTS".data)
      else if jsTruthyS a.format then audioFormatOf (a.format.getD [])
      else []
    | none =>
      if jsTruthyS a.format then audioFormatOf (a.format.getD [])
      else []
  let ch := parseChannels a.channels
  if ch ≠ [] ∧ base ≠ [] then base ++ (' ' :: ch) else base

/-- Embedding of generateSummary: pipe-separated video, audio and subtitle
segments, each omitted when its underlying data is absent. -/
def generateSummary (structured : MediaInfoStructured) : Str :=
  let videoSeg : List Str :=
    match structured.video with
    | none => []
    | some [] => []
    | some (v :: _) =>
      let p1 : List Str := if jsTruthyS v.format then [v.format.getD []] else []
      let p2 : List Str :=
        match v.bit_depth with
        | some bd =>
          if bd ≠ [] ∧ ¬ containsSub bd "8".data then
            [replaceFirst " bit".data "-bit".data
              (replaceFirst " bits".data "-bit".data bd)]
          else []
        | none => []
      let res := getResolution v.height
      let p3 : List Str := if res ≠ [] then [res] else []
      let hdr := getHDRInfo structured.video
      let p4 : List Str := if hdr ≠ [] then [hdr] else []
      let videoParts := p1 ++ p2 ++ p3 ++ p4
      if videoParts.length = 0 then [] else [List.intercalate " ".data videoParts]
  let audioSeg : List Str :=
    match structured.audio with
    | none => []
    | some [] => []
    | some audios =>
      let audioFormats := audios.foldl (fun (acc : List Str) a =>
        let d := audioDescOf a
        if d ≠ [] ∧ d ∉ acc then acc ++ [d] else acc) []
      if audioFormats.length = 0 then []
      else [List.intercalate " + ".data (audioFormats.take 2)]
  let textSeg : List Str :=
    match structured.text with
    | none => []
    | some [] => []
    | some ts =>
      let count := ts.length
      let langs := getSubtitleLanguages structured.text
      let subInfo := natRepr count ++ " Sub".data ++
        (if count ≠ 1 then "s".data else []) ++
        (if 0 < langs.length ∧ langs.length ≤ 4 then
          " (".data ++ List.intercalate ", ".data langs ++ ")".data
        else if 4 < langs.length then
          " (".data ++ List.intercalate ", ".data (langs.take 3) ++ "...)".data
        else [])
      [subInfo]
  List.intercalate " | ".data (videoSeg ++ audioSeg ++ textSeg)

/- ----------------------------------------------------------------
Abstract MediaInfo reports.

An MIBlock is a header plus ordered key/value entries; rendering writes the
header line followed by data lines in the Key : Value layout of the
MediaInfo text format, blocks separated by blank lines.  Well-formedness
keeps every piece free of newlines, backslashes, carriage returns and the
no-break-space artifact byte, trimmed, and non-empty (keys also colon-free),
so a rendered report round-trips through parseMediaInfo.
---------------------------------------------------------------- -/

structure MIBlock where
  header : Str
  entries : List (Str × Str)
  deriving DecidableEq, Repr

def renderEntry (e : Str × Str) : Str := '\n' :: (e.1 ++ (' ' :: ':' :: ' ' :: e.2))

def renderBlock (b : MIBlock) : Str := b.header ++ b.entries.flatMap renderEntry

def renderReport (bs : List MIBlock) : Str :=
  List.intercalate ['\n', '\n'] (bs.map renderBlock)

def plainChar (c : Char) : Bool :=
  c ≠ '\n' && c ≠ '\\' && c ≠ 'Â' && c ≠ '\r'

def wfHeader (h : Str) : Bool := h ≠ [] && trimL h = h && h.all plainChar

def wfKey (k : Str) : Bool :=
  k ≠ [] && trimL k = k && k.all (fun c => plainChar c && c ≠ ':')

def wfValue (v : Str) : Bool := v ≠ [] && trimL v = v && v.all plainChar

def wfBlock (b : MIBlock) : Bool :=
  wfHeader b.header && b.entries.all (fun e => wfKey e.1 && wfValue e.2)

def wfReport (bs : List MIBlock) : Bool := bs.all wfBlock

def sectionOf (b : MIBlock) : MediaInfoSection :=
  { header := b.header
    base := (headerParse b.header).1
    index := (headerParse b.header).2
    data := buildDataKV b.entries }

/-- The parse of an abstract report: sections grouped by base name in
document order, exactly as parseMediaInfo builds its mapping. -/
def parsedOf (bs : List MIBlock) : MediaInfoParsed :=
  bs.foldl (fun acc b => appendParsed acc (headerParse b.header).1 (sectionOf b)) []

/-- Every newline in the list is immediately followed, within the list, by
a non-whitespace character; such a segment contains no block separator. -/
def nlOk : Str → Bool
  | [] => true
  | '\n' :: rest =>
    match rest with
    | c :: _ => ¬ jsWS c && nlOk rest
    | [] => false
  | _ :: rest => nlOk rest

/-- Aggregation of a sequence of raw values for one key, as pushKV performs
it: no value, a single plain value, or an ordered array of two or more. -/
def combineVals : Option MIVal → List Str → Option MIVal
  | x, [] => x
  | none, v :: vs => combineVals (some (MIVal.str v)) vs
  | some (MIVal.str v), w :: ws => combineVals (some (MIVal.arr [v, w])) ws
  | some (MIVal.arr vs), w :: ws => combineVals (some (MIVal.arr (vs ++ [w]))) ws

/-- Classification of an explicit HDR-format label, stated from the claim:
the keyword set dolby vision, hdr10 plus, hdr10, hlg in that order, and a
generic HDR for any other label. -/
def specLabelClass (h : Str) : Str :=
  if containsSub (lowerL h) "dolby vision".data then "DV".data
  else if containsSub (lowerL h) "hdr10+".data then "HDR10+".data
  else if containsSub (lowerL h) "hdr10".data then "HDR10".data
  else if containsSub (lowerL h) "hlg".data then "HLG".data
  else "HDR".data

/-- Fallback classification of the transfer-characteristics field, stated
from the claim: pq or smpte st 2084 mean HDR10, hlg means HLG. -/
def specTransferClass (tc : Option Str) : Str :=
  let t := lowerL (tc.getD [])
  if containsSub t "pq".data || containsSub t "smpte st 2084".data then "HDR10".data
  else if containsSub t "hlg".data then "HLG".data
  else []

/- ----------------------------------------------------------------
Language flags, from the language-flags utility module
(imported in the sources as lib/utils/language-flags).
---------------------------------------------------------------- -/

def languageToCountry : List (Str × Str) := [
  ("afrikaans".data, "ZA".data),
  ("af".data, "ZA".data),
  ("albanian".data, "AL".data),
  ("sq".data, "AL".data),
  ("amharic".data, "ET".data),
  ("am".data, "ET".data),
  ("arabic".data, "SA".data),
  ("ar".data, "SA".data),
  ("armenian".data, "AM".data),
  ("hy".data, "AM".data),
  ("azerbaijani".data, "AZ".data),
  ("az".data, "AZ".data),
  ("basque".data, "ES".data),
  ("eu".data, "ES".data),
  ("belarusian".data, "BY".data),
  ("be".data, "BY".data),
  ("bengali".data, "BD".data),
  ("bn".data, "BD".data),
  ("bosnian".data, "BA".data),
  ("bs".data, "BA".data),
  ("bulgarian".data, "BG".data),
  ("bg".data, "BG".data),
  ("burmese".data, "MM".data),
  ("my".data, "MM".data),
  ("cambodian".data, "KH".data),
  ("km".data, "KH".data),
  ("catalan".data, "ES".data),
  ("ca".data, "ES".data),
  ("cebuano".data, "PH".data),
  ("chinese".data, "CN".data),
  ("zh".data, "CN".data),
  ("chinese (simplified)".data, "CN".data),
  ("chinese (traditional)".data, "CN".data),
  ("cantonese".data, "HK".data),
  ("croatian".data, "HR".data),
  ("hr".data, "HR".data),
  ("czech".data, "CZ".data),
  ("cs".data, "CZ".data),
  ("danish".data, "DK".data),
  ("da".data, "DK".data),
  ("dutch".data, "NL".data),
  ("nl".data, "NL".data),
  ("english".data, "US".data),
  ("en".data, "US".data),
  ("esperanto".data, "PL".data),
  ("eo".data, "PL".data),
  ("estonian".data, "EE".data),
  ("et".data, "EE".data),
  ("filipino".data, "PH".data),
  ("fil".data, "PH".data),
  ("finnish".data, "FI".data),
  ("fi".data, "FI".data),
  ("french".data, "FR".data),
  ("fr".data, "FR".data),
  ("galician".data, "ES".data),
  ("gl".data, "ES".data),
  ("georgian".data, "GE".data),
  ("ka".data, "GE".data),
  ("german".data, "DE".data),
  ("de".data, "DE".data),
  ("greek".data, "GR".data),
  ("el".data, "GR".data),
  ("gujarati".data, "IN".data),
  ("gu".data, "IN".data),
  ("haitian creole".data, "HT".data),
  ("ht".data, "HT".data),
  ("hebrew".data, "IL".data),
  ("he".data, "IL".data),
  ("hindi".data, "IN".data),
  ("hi".data, "IN".data),
  ("hungarian".data, "HU".data),
  ("hu".data, "HU".data),
  ("icelandic".data, "IS".data),
  ("is".data, "IS".data),
  ("indonesian".data, "ID".data),
  ("id".data, "ID".data),
  ("irish".data, "IE".data),
  ("ga".data, "IE".data),
  ("italian".data, "IT".data),
  ("it".data, "IT".data),
  ("japanese".data, "JP".data),
  ("ja".data, "JP".data),
  ("javanese".data, "ID".data),
  ("jv".data, "ID".data),
  ("kannada".data, "IN".data),
  ("kn".data, "IN".data),
  ("kazakh".data, "KZ".data),
  ("kk".data, "KZ".data),
  ("khmer".data, "KH".data),
  ("korean".data, "KR".data),
  ("ko".data, "KR".data),
  ("kurdish".data, "TR".data),
  ("ku".data, "TR".data),
  ("kyrgyz".data, "KG".data),
  ("ky".data, "KG".data),
  ("lao".data, "LA".data),
  ("lo".data, "LA".data),
  ("latin".data, "VA".data),
  ("la".data, "VA".data),
  ("latvian".data, "LV".data),
  ("lv".data, "LV".data),
  ("lithuanian".data, "LT".data),
  ("lt".data, "LT".data),
  ("luxembourgish".data, "LU".data),
  ("lb".data, "LU".data),
  ("macedonian".data, "MK".data),
  ("mk".data, "MK".data),
  ("malay".data, "MY".data),
  ("ms".data, "MY".data),
  ("malayalam".data, "IN".data),
  ("ml".data, "IN".data),
  ("maltese".data, "MT".data),
  ("mt".data, "MT".data),
  ("maori".data, "NZ".data),
  ("mi".data, "NZ".data),
  ("marathi".data, "IN".data),
  ("mr".data, "IN".data),
  ("mongolian".data, "MN".data),
  ("mn".data, "MN".data),
  ("nepali".data, "NP".data),
  ("ne".data, "NP".data),
  ("norwegian".data, "NO".data),
  ("no".data, "NO".data),
  ("pashto".data, "AF".data),
  ("ps".data, "AF".data),
  ("persian".data, "IR".data),
  ("fa".data, "IR".data),
  ("polish".data, "PL".data),
  ("pl".data, "PL".data),
  ("portuguese".data, "PT".data),
  ("pt".data, "PT".data),
  ("portuguese (brazil)".data, "BR".data),
  ("punjabi".data, "PK".data),
  ("pa".data, "PK".data),
  ("romanian".data, "RO".data),
  ("ro".data, "RO".data),
  ("russian".data, "RU".data),
  ("ru".data, "RU".data),
  ("serbian".data, "RS".data),
  ("sr".data, "RS".data),
  ("sinhala".data, "LK".data),
  ("si".data, "LK".data),
  ("slovak".data, "SK".data),
  ("sk".data, "SK".data),
  ("slovenian".data, "SI".data),
  ("sl".data, "SI".data),
  ("somali".data, "SO".data),
  ("so".data, "SO".data),
  ("spanish".data, "ES".data),
  ("es".data, "ES".data),
  ("spanish (latin america)".data, "MX".data),
  ("sundanese".data, "ID".data),
  ("su".data, "ID".data),
  ("swahili".data, "KE".data),
  ("sw".data, "KE".data),
  ("swedish".data, "SE".data),
  ("sv".data, "SE".data),
  ("tagalog".data, "PH".data),
  ("tl".data, "PH".data),
  ("tajik".data, "TJ".data),
  ("tg".data, "TJ".data),
  ("tamil".data, "IN".data),
  ("ta".data, "IN".data),
  ("tatar".data, "RU".data),
  ("tt".data, "RU".data),
  ("telugu".data, "IN".data),
  ("te".data, "IN".data),
  ("thai".data, "TH".data),
  ("th".data, "TH".data),
  ("turkish".data, "TR".data),
  ("tr".data, "TR".data),
  ("turkmen".data, "TM".data),
  ("tk".data, "TM".data),
  ("ukrainian".data, "UA".data),
  ("uk".data, "UA".data),
  ("urdu".data, "PK".data),
  ("ur".data, "PK".data),
  ("uyghur".data, "CN".data),
  ("ug".data, "CN".data),
  ("uzbek".data, "UZ".data),
  ("uz".data, "UZ".data),
  ("vietnamese".data, "VN".data),
  ("vi".data, "VN".data),
  ("welsh".data, "GB-WLS".data),
  ("cy".data, "GB-WLS".data),
  ("xhosa".data, "ZA".data),
  ("xh".data, "ZA".data),
  ("yiddish".data, "IL".data),
  ("yi".data, "IL".data),
  ("yoruba".data, "NG".data),
  ("yo".data, "NG".data),
  ("zulu".data, "ZA".data),
  ("zu".data, "ZA".data)]

/-- Regional-indicator flag: each letter of the upper-cased code maps to
the code point 127397 positions above it. -/
def countryCodeToFlag (code : Str) : Str :=
  (upperL code).map (fun ch => Char.ofNat (127397 + ch.toNat))

def lookupLang (k : Str) : Option Str :=
  (languageToCountry.find? (fun e => e.1 = k)).map (fun e => e.2)

/-- Embedding of getLanguageFlag: exact table match on the lower-cased
trimmed label, then a prefix match in table order, then the globe glyph. -/
def getLanguageFlag (language : Str) : Str :=
  if language = [] then "🏳️".data
  else
    let normalized := trimL (lowerL language)
    match lookupLang normalized with
    | some country => countryCodeToFlag country
    | none =>
      let n0 := trimL ((splitOnChar '(' normalized).headD [])
      match languageToCountry.find?
          (fun e => e.1.isPrefixOf normalized || n0.isPrefixOf e.1) with
      | some e => countryCodeToFlag e.2
      | none => "🌐".data

def markerWords : List Str :=
  ["sdh".data, "cc".data, "forced".data, "commentary".data,
   "descriptive".data, "hearing impaired".data]

/-- Matcher for the marker regex: optional whitespace, one of the marker
words (case-insensitively, in alternation order), optional whitespace. -/
def mMarker (s : Str) : Option (Nat × Str) :=
  let w := s.takeWhile jsWS
  let rest := s.drop w.length
  match markerWords.find? (fun word => ciStarts word rest) with
  | some word =>
    let t := (rest.drop word.length).takeWhile jsWS
    some (w.length + word.length + t.length, [])
  | none => none

def stripMarkers (s : Str) : Str := replaceAll mMarker s

/-- Embedding of normalizeLanguage: lower-case, cut at the first opening
parenthesis, strip marker words, trim; then collapse Chinese variants,
keep Cantonese, and recognize the two regional variants on the original
lower-cased label. -/
def normalizeLanguage (language : Str) : Str :=
  if language = [] then []
  else
    let base := trimL (stripMarkers ((splitOnChar '(' (lowerL language)).headD []))
    if containsSub base "chinese".data then "chinese".data
    else if containsSub base "cantonese".data then "cantonese".data
    else
      let ll := lowerL language
      if containsSub ll "spanish ".data && containsSub ll "latin america".data then
        "spanish (latin america)".data
      else if containsSub ll "portuguese ".data && containsSub ll "brazil".data then
        "portuguese (brazil)".data
      else base

structure LanguageFlag where
  language : Str
  flag : Str
  deriving DecidableEq, Repr

/-- Embedding of getUniqueLanguageFlags: left fold with a seen set keeping,
for each non-empty canonical language, the first flag computed. -/
def getUniqueLanguageFlags (languages : List Str) : List LanguageFlag :=
  (languages.foldl (fun (st : List Str × List LanguageFlag) lang =>
    let normalized := normalizeLanguage lang
    if normalized ≠ [] ∧ normalized ∉ st.1 then
      (st.1 ++ [normalized], st.2 ++ [⟨normalized, getLanguageFlag normalized⟩])
    else st) ([], [])).2

/-- First-occurrence deduplication, stated from the claim. -/
def dedupFirstAux (seen : List Str) : List Str → List Str
  | [] => []
  | x :: xs =>
    if x ∈ seen then dedupFirstAux seen xs
    else x :: dedupFirstAux (seen ++ [x]) xs

def dedupFirst (l : List Str) : List Str := dedupFirstAux [] l

/- ================= END OF DEFINITIONS (more inserted above) ================= -/

/- ======================= THEOREMS ======================= -/

/-- C1 counterexample: on a decoded torrent whose info dictionary has neither
a files entry nor a length entry, parseTorrent returns an ordinary
TorrentEntry with an empty file list; no decode error is reported, refuting
the claim at this concrete input. -/
theorem c1_counterexample :
    parseTorrent ⟨"X".data, none, none⟩ = ⟨"X".data, []⟩ := by
  decide

/-- C1 amended: for every decoded torrent whose info dictionary contains
neither a files entry nor a length entry, parseTorrent succeeds and returns a
TorrentEntry whose file list is empty (the code has no error path for this
case; nothing distinguishes it from a zero-file torrent). -/
theorem c1_amended_thm (info : BencodedTorrentInfo)
    (hf : info.files = none) (hl : info.length = none) :
    parseTorrent info = ⟨info.name, []⟩ := by
  simp [parseTorrent, hf, hl]

theorem c1_witness :
    (⟨"X".data, none, none⟩ : BencodedTorrentInfo).files = none ∧
      parseTorrent ⟨"X".data, none, none⟩ = ⟨"X".data, []⟩ :=
  ⟨by decide, c1_amended_thm ⟨"X".data, none, none⟩ rfl rfl⟩

/-- C8 counterexample: on a single-file torrent whose info.length is present
with value zero, parseTorrent returns an empty file list rather than the one
file of size zero required by the claim, because the JavaScript truthiness
test on decoded.info.length treats zero like an absent field. -/
theorem c8_counterexample :
    parseTorrent ⟨"Show".data, none, some 0⟩ = ⟨"Show".data, []⟩ ∧
      (parseTorrent ⟨"Show".data, none, some 0⟩).files ≠ [⟨"Show".data, 0⟩] := by
  constructor
  · decide
  · decide

/-- C8 amended: for every successfully decoded torrent, when info.files is
present the files of the result are, in order, each path-component list
joined with a slash paired with the declared length; otherwise, when
info.length is present and non-zero (a present zero length is treated like an
absent one), the result is one file whose path is the torrent name and whose
size is that length.  The concrete two-file example of the specification is
included. -/
theorem c8_amended_thm (info : BencodedTorrentInfo) :
    (∀ fs, info.files = some fs →
      parseTorrent info =
        ⟨info.name, fs.map (fun f => ⟨List.intercalate ['/'] f.1, f.2⟩)⟩) ∧
    (info.files = none → ∀ n, info.length = some n → n ≠ 0 →
      parseTorrent info = ⟨info.name, [⟨info.name, n⟩]⟩) ∧
    parseTorrent ⟨"Show".data,
        some [(["S01".data, "e1.mkv".data], 100), (["S01".data, "e2.mkv".data], 200)], none⟩ =
      ⟨"Show".data, [⟨"S01/e1.mkv".data, 100⟩, ⟨"S01/e2.mkv".data, 200⟩]⟩ := by
  refine ⟨?_, ?_, by decide⟩
  · intro fs hfs
    simp [parseTorrent, hfs]
  · intro hf n hl hn
    simp [parseTorrent, hf, hl, hn]

theorem c8_witness :
    (⟨"A".data, none, some 7⟩ : BencodedTorrentInfo).files = none ∧
      parseTorrent ⟨"A".data, none, some 7⟩ = ⟨"A".data, [⟨"A".data, 7⟩]⟩ :=
  ⟨by decide, (c8_amended_thm ⟨"A".data, none, some 7⟩).2.1 rfl 7 rfl (by decide)⟩

/- Unfolding equations and a specification for firstIdx. -/

theorem firstIdx_nil (pat : Str) :
    firstIdx pat [] = if pat.isPrefixOf [] then some 0 else none := by
  rfl

theorem firstIdx_cons (pat : Str) (c : Char) (cs : Str) :
    firstIdx pat (c :: cs) =
      if pat.isPrefixOf (c :: cs) then some 0 else (firstIdx pat cs).map (· + 1) := by
  rfl

theorem firstIdx_spec_some (pat : Str) :
    ∀ (s : Str) (i : Nat), firstIdx pat s = some i →
      pat <+: s.drop i ∧ ∀ j, j < i → ¬ pat <+: s.drop j := by
  intro s
  induction s with
  | nil =>
    intro i h
    rw [firstIdx_nil] at h
    split at h
    · rename_i hp
      cases h
      exact ⟨List.isPrefixOf_iff_prefix.mp hp, fun j hj => absurd hj (Nat.not_lt_zero j)⟩
    · cases h
  | cons c cs ih =>
    intro i h
    rw [firstIdx_cons] at h
    split at h
    · rename_i hp
      cases h
      exact ⟨List.isPrefixOf_iff_prefix.mp hp, fun j hj => absurd hj (Nat.not_lt_zero j)⟩
    · rename_i hp
      cases hfi : firstIdx pat cs with
      | none => rw [hfi] at h; cases h
      | some i' =>
        rw [hfi] at h
        cases h
        obtain ⟨h1, h2⟩ := ih i' hfi
        refine ⟨h1, ?_⟩
        intro j hj
        cases j with
        | zero =>
          simpa [List.isPrefixOf_iff_prefix] using hp
        | succ j' =>
          exact h2 j' (Nat.lt_of_succ_lt_succ hj)

theorem firstIdx_spec_none (pat : Str) :
    ∀ (s : Str), firstIdx pat s = none → ∀ j, ¬ pat <+: s.drop j := by
  intro s
  induction s with
  | nil =>
    intro h j
    rw [firstIdx_nil] at h
    split at h
    · cases h
    · rename_i hp
      simpa [List.isPrefixOf_iff_prefix, List.drop_nil] using hp
  | cons c cs ih =>
    intro h j
    rw [firstIdx_cons] at h
    split at h
    · cases h
    · rename_i hp
      cases j with
      | zero => simpa [List.isPrefixOf_iff_prefix] using hp
      | succ j' =>
        cases hfi : firstIdx pat cs with
        | none => exact ih hfi j'
        | some i' => rw [hfi] at h; cases h

theorem firstIdx_isSome_of_hit (pat s : Str) (j : Nat) (h : pat <+: s.drop j) :
    ∃ i, firstIdx pat s = some i := by
  cases hfi : firstIdx pat s with
  | none => exact absurd h (firstIdx_spec_none pat s hfi j)
  | some i => exact ⟨i, rfl⟩

theorem firstIdx_append (pat : Str) :
    ∀ (t : Str) (X : Str), (∀ i, i < t.length → ¬ pat <+: (t ++ X).drop i) →
      firstIdx pat (t ++ X) = (firstIdx pat X).map (· + t.length) := by
  intro t
  induction t with
  | nil =>
    intro X _
    simp only [List.nil_append, List.length_nil]
    cases h : firstIdx pat X <;> simp [h]
  | cons c t' ih =>
    intro X h
    rw [List.cons_append, firstIdx_cons]
    have h0 : ¬ pat.isPrefixOf (c :: (t' ++ X)) := by
      rw [List.isPrefixOf_iff_prefix]
      simpa using h 0 (by simp)
    rw [if_neg h0]
    have h' : ∀ i, i < t'.length → ¬ pat <+: (t' ++ X).drop i := by
      intro i hi
      have := h (i + 1) (by simp; omega)
      simpa using this
    rw [ih X h']
    cases firstIdx pat X with
    | none => rfl
    | some v => simp; omega

/- Occurrences of the tag patterns begin with an opening bracket. -/

theorem openPat_head (k : TagKind) : (openPat k).head? = some '[' := by
  cases k <;> rfl

theorem closePat_head (k : TagKind) : (closePat k).head? = some '[' := by
  cases k <;> rfl

theorem not_prefix_cons_of_head_ne {p : Str} {c : Char} {l : Str}
    (hp : p.head? = some '[') (hc : c ≠ '[') : ¬ p <+: (c :: l) := by
  intro hle
  cases p with
  | nil => cases hp
  | cons p0 ps =>
    rw [List.cons_prefix_cons] at hle
    cases hp
    exact hc (hle.1.symm)

theorem wfText_mem {t : Str} (ht : wfText t = true) {c : Char} (hc : c ∈ t) : c ≠ '[' := by
  have := List.all_eq_true.mp ht c hc
  simpa using this

theorem no_hit_in_text {pat : Str} (hp : pat.head? = some '[') {t : Str}
    (ht : wfText t = true) (X : Str) :
    ∀ i, i < t.length → ¬ pat <+: (t ++ X).drop i := by
  intro i hi
  rw [List.drop_append_of_le_length (Nat.le_of_lt hi)]
  cases hd : t.drop i with
  | nil =>
    have : t.length ≤ i := by
      by_contra hcon
      have := congrArg List.length hd
      simp at this
      omega
    omega
  | cons c r =>
    have hc : c ∈ t := by
      have : c ∈ t.drop i := by rw [hd]; exact List.mem_cons_self c r
      exact List.drop_subset i t this
    rw [List.cons_append]
    exact not_prefix_cons_of_head_ne hp (wfText_mem ht hc)

/- Fuel irrelevance and position-shift lemmas for the depth-counting scan. -/

theorem mapped_idx_ge {p low : Str} {pos n : Nat}
    (h : (firstIdx p (low.drop pos)).map (· + pos) = some n) : pos ≤ n := by
  cases hf : firstIdx p (low.drop pos) with
  | none => rw [hf] at h; cases h
  | some v => rw [hf] at h; simp at h; omega

theorem scanCloseF_mono (low opat cpat : Str) (hop : 0 < opat.length) (hcp : 0 < cpat.length) :
    ∀ f₁ f₂ depth pos, low.length - pos < f₁ → low.length - pos < f₂ →
      scanCloseF low opat cpat f₁ depth pos = scanCloseF low opat cpat f₂ depth pos := by
  intro f₁
  induction f₁ with
  | zero => intro f₂ depth pos h₁ _; omega
  | succ f₁' ih =>
    intro f₂ depth pos h₁ h₂
    cases f₂ with
    | zero => omega
    | succ f₂' =>
      simp only [scanCloseF]
      by_cases hg : pos < low.length ∧ 0 < depth
      · rw [if_pos hg, if_pos hg]
        cases hc : (firstIdx cpat (low.drop pos)).map (· + pos) with
        | none => rfl
        | some nextClose =>
          have hcn : pos ≤ nextClose := mapped_idx_ge hc
          cases ho : (firstIdx opat (low.drop pos)).map (· + pos) with
          | none =>
            by_cases hd : depth = 1
            · simp [hd]
            · simp only [if_neg hd]
              exact ih f₂' (depth - 1) (nextClose + cpat.length) (by omega) (by omega)
          | some nextOpen =>
            have hon : pos ≤ nextOpen := mapped_idx_ge ho
            by_cases hlt : nextOpen < nextClose
            · simp only [if_pos hlt]
              exact ih f₂' (depth + 1) (nextOpen + opat.length) (by omega) (by omega)
            · simp only [if_neg hlt]
              by_cases hd : depth = 1
              · simp [hd]
              · simp only [if_neg hd]
                exact ih f₂' (depth - 1) (nextClose + cpat.length) (by omega) (by omega)
      · rw [if_neg hg, if_neg hg]

theorem scanCloseF_shift (low opat cpat : Str) :
    ∀ f depth p δ,
      scanCloseF low opat cpat f depth (p + δ) =
        (scanCloseF (low.drop p) opat cpat f depth δ).map (fun q => (q.1 + p, q.2 + p)) := by
  intro f
  induction f with
  | zero => intros; rfl
  | succ f' ih =>
    intro depth p δ
    simp only [scanCloseF]
    have hdd : low.drop (p + δ) = (low.drop p).drop δ := by
      rw [List.drop_drop, Nat.add_comm]
    by_cases hg : p + δ < low.length ∧ 0 < depth
    · have hg' : δ < (low.drop p).length ∧ 0 < depth := by
        refine ⟨?_, hg.2⟩
        have := hg.1
        simp only [List.length_drop]
        omega
      rw [if_pos hg, if_pos hg', hdd]
      cases hc : firstIdx cpat ((low.drop p).drop δ) with
      | none => rfl
      | some i =>
        cases ho : firstIdx opat ((low.drop p).drop δ) with
        | none =>
          simp only [Option.map_some', Option.map_none']
          by_cases hd : depth = 1
          · simp only [if_pos hd, Option.map_some', Option.some.injEq, Prod.mk.injEq]
            omega
          · simp only [if_neg hd]
            have harith : i + (p + δ) + cpat.length = p + (i + δ + cpat.length) := by omega
            rw [harith, ih]
        | some j =>
          simp only [Option.map_some', Option.map_none']
          by_cases hlt : j + (p + δ) < i + (p + δ)
          · have hlt' : j + δ < i + δ := by omega
            rw [if_pos hlt, if_pos hlt']
            have harith : j + (p + δ) + opat.length = p + (j + δ + opat.length) := by omega
            rw [harith, ih]
          · have hlt' : ¬ (j + δ < i + δ) := by omega
            rw [if_neg hlt, if_neg hlt']
            by_cases hd : depth = 1
            · simp only [if_pos hd, Option.map_some', Option.some.injEq, Prod.mk.injEq]
              omega
            · simp only [if_neg hd]
              have harith : i + (p + δ) + cpat.length = p + (i + δ + cpat.length) := by omega
              rw [harith, ih]
    · have hld : (low.drop p).length = low.length - p := List.length_drop p low
      have hg' : ¬ (δ < (low.drop p).length ∧ 0 < depth) := by
        rw [hld]
        intro hcon
        exact hg ⟨by omega, hcon.2⟩
      rw [if_neg hg, if_neg hg']
      rfl

theorem scanClose_eq_F (low opat cpat : Str) (hop : 0 < opat.length) (hcp : 0 < cpat.length)
    (f depth pos : Nat) (hf : low.length - pos < f) :
    scanCloseF low opat cpat f depth pos = scanClose low opat cpat depth pos := by
  exact scanCloseF_mono low opat cpat hop hcp f (low.length + 1) depth pos hf (by omega)

theorem scanClose_step (low opat cpat : Str) (hop : 0 < opat.length) (hcp : 0 < cpat.length)
    (depth pos : Nat) :
    scanClose low opat cpat depth pos =
      (if pos < low.length ∧ 0 < depth then
        match (firstIdx cpat (low.drop pos)).map (· + pos) with
        | none => none
        | some nextClose =>
          match (firstIdx opat (low.drop pos)).map (· + pos) with
          | some nextOpen =>
            if nextOpen < nextClose then
              scanClose low opat cpat (depth + 1) (nextOpen + opat.length)
            else
              if depth = 1 then some (nextClose, nextClose + cpat.length)
              else scanClose low opat cpat (depth - 1) (nextClose + cpat.length)
          | none =>
            if depth = 1 then some (nextClose, nextClose + cpat.length)
            else scanClose low opat cpat (depth - 1) (nextClose + cpat.length)
      else none) := by
  show scanCloseF low opat cpat (low.length + 1) depth pos = _
  simp only [scanCloseF]
  by_cases hg : pos < low.length ∧ 0 < depth
  · rw [if_pos hg, if_pos hg]
    cases hc : (firstIdx cpat (low.drop pos)).map (· + pos) with
    | none => rfl
    | some nextClose =>
      have hcn : pos ≤ nextClose := mapped_idx_ge hc
      cases ho : (firstIdx opat (low.drop pos)).map (· + pos) with
      | none =>
        by_cases hd : depth = 1
        · simp [hd]
        · simp only [if_neg hd]
          exact scanClose_eq_F low opat cpat hop hcp _ _ _ (by omega)
      | some nextOpen =>
        have hon : pos ≤ nextOpen := mapped_idx_ge ho
        by_cases hlt : nextOpen < nextClose
        · simp only [if_pos hlt]
          exact scanClose_eq_F low opat cpat hop hcp _ _ _ (by omega)
        · simp only [if_neg hlt]
          by_cases hd : depth = 1
          · simp [hd]
          · simp only [if_neg hd]
            exact scanClose_eq_F low opat cpat hop hcp _ _ _ (by omega)
  · rw [if_neg hg, if_neg hg]

theorem scanClose_shift (low opat cpat : Str) (hop : 0 < opat.length) (hcp : 0 < cpat.length)
    (depth p δ : Nat) :
    scanClose low opat cpat depth (p + δ) =
      (scanClose (low.drop p) opat cpat depth δ).map (fun q => (q.1 + p, q.2 + p)) := by
  show scanCloseF low opat cpat (low.length + 1) depth (p + δ) = _
  rw [scanCloseF_shift]
  have hlen : (low.drop p).length ≤ low.length := by
    rw [List.length_drop]; omega
  rw [scanCloseF_mono (low.drop p) opat cpat hop hcp (low.length + 1)
    ((low.drop p).length + 1) depth δ (by omega) (by omega)]
  rfl

theorem scanCloseF_some_bound (low opat cpat : Str) :
    ∀ f depth pos e q, scanCloseF low opat cpat f depth pos = some (e, q) →
      pos ≤ e ∧ q = e + cpat.length := by
  intro f
  induction f with
  | zero => intro depth pos e q h; cases h
  | succ f' ih =>
    intro depth pos e q h
    simp only [scanCloseF] at h
    split at h
    · split at h
      · cases h
      · rename_i nextClose hc
        have hcn : pos ≤ nextClose := mapped_idx_ge hc
        split at h
        · rename_i nextOpen ho
          have hon : pos ≤ nextOpen := mapped_idx_ge ho
          split at h
          · have := ih _ _ _ _ h
            omega
          · split at h
            · cases h
              omega
            · have := ih _ _ _ _ h
              omega
        · split at h
          · cases h
            omega
          · have := ih _ _ _ _ h
            omega
    · cases h

theorem scanClose_some_bound (low opat cpat : Str) (depth pos e q : Nat)
    (h : scanClose low opat cpat depth pos = some (e, q)) :
    pos ≤ e ∧ q = e + cpat.length :=
  scanCloseF_some_bound low opat cpat (low.length + 1) depth pos e q h

/- Lower casing never creates an opening bracket. -/

theorem toLower_ne_bracket {c : Char} (hc : c ≠ '[') : Char.toLower c ≠ '[' := by
  intro heq
  simp only [Char.toLower] at heq
  by_cases h : c.toNat ≥ 65 ∧ c.toNat ≤ 90
  · rw [if_pos h] at heq
    set m := c.toNat with hm
    have h97 : 97 ≤ m + 32 := by omega
    have h122 : m + 32 ≤ 122 := by omega
    set m2 := m + 32 with hm2
    clear_value m2
    interval_cases m2 <;> exact absurd heq (by decide)
  · rw [if_neg h] at heq
    exact hc heq

theorem lowerL_no_bracket {t : Str} (ht : wfText t = true) :
    ∀ c ∈ lowerL t, c ≠ '[' := by
  intro c hcmem
  obtain ⟨c0, hc0, hc0l⟩ := List.mem_map.mp hcmem
  rw [← hc0l]
  exact toLower_ne_bracket (wfText_mem ht hc0)

/- A segment in which neither pattern occurs is transparent to the scan. -/

theorem scanClose_skip (opat cpat : Str) (hop : 0 < opat.length) (hcp : 0 < cpat.length)
    (t X : Str)
    (hto : ∀ i, i < t.length → ¬ opat <+: (t ++ X).drop i)
    (htc : ∀ i, i < t.length → ¬ cpat <+: (t ++ X).drop i)
    (depth : Nat) :
    scanClose (t ++ X) opat cpat depth 0 =
      (scanClose X opat cpat depth 0).map (fun q => (q.1 + t.length, q.2 + t.length)) := by
  rw [scanClose_step (t ++ X) opat cpat hop hcp depth 0,
      scanClose_step X opat cpat hop hcp depth 0]
  simp only [List.drop_zero]
  rw [firstIdx_append opat t X hto, firstIdx_append cpat t X htc]
  by_cases hdep : 0 < depth
  · cases hc : firstIdx cpat X with
    | none => simp
    | some i =>
      have hiX := (firstIdx_spec_some cpat X i hc).1
      have hXlen : i + cpat.length ≤ X.length := by
        have h1 := hiX.length_le
        rw [List.length_drop] at h1
        omega
      have hgL : (0 < (t ++ X).length ∧ 0 < depth) := by
        constructor
        · simp only [List.length_append]; omega
        · exact hdep
      have hgX : (0 < X.length ∧ 0 < depth) := ⟨by omega, hdep⟩
      rw [if_pos hgL, if_pos hgX]
      simp only [Option.map_some', Nat.add_zero]
      cases ho : firstIdx opat X with
      | none =>
        simp only [Option.map_none', Option.map_some']
        by_cases hd : depth = 1
        · simp only [if_pos hd, Option.map_some', Option.some.injEq, Prod.mk.injEq,
            true_and, and_true]
          omega
        · simp only [if_neg hd]
          have harith : i + t.length + cpat.length = t.length + (i + cpat.length) := by omega
          rw [harith, scanClose_shift (t ++ X) opat cpat hop hcp (depth - 1) t.length
            (i + cpat.length), List.drop_left]
      | some j =>
        simp only [Option.map_some']
        by_cases hlt : j < i
        · have hlt₂ : j + t.length < i + t.length := by omega
          rw [if_pos hlt, if_pos hlt₂]
          have harith : j + t.length + opat.length = t.length + (j + opat.length) := by omega
          rw [harith, scanClose_shift (t ++ X) opat cpat hop hcp (depth + 1) t.length
            (j + opat.length), List.drop_left]
        · have hlt₂ : ¬ (j + t.length < i + t.length) := by omega
          rw [if_neg hlt, if_neg hlt₂]
          by_cases hd : depth = 1
          · simp only [if_pos hd, Option.map_some', Option.some.injEq, Prod.mk.injEq,
              true_and, and_true]
            omega
          · simp only [if_neg hd]
            have harith : i + t.length + cpat.length = t.length + (i + cpat.length) := by omega
            rw [harith, scanClose_shift (t ++ X) opat cpat hop hcp (depth - 1) t.length
              (i + cpat.length), List.drop_left]
  · have hg₁ : ¬ (0 < (t ++ X).length ∧ 0 < depth) := by
      intro hcon; exact hdep hcon.2
    have hg₂ : ¬ (0 < X.length ∧ 0 < depth) := by
      intro hcon; exact hdep hcon.2
    rw [if_neg hg₁, if_neg hg₂]
    rfl

/- Lower casing fixes the concrete tag alphabets. -/

theorem lowerL_kindStr (k : TagKind) : lowerL (kindStr k) = kindStr k := by
  cases k <;> decide

theorem lowerL_closePat (k : TagKind) : lowerL (closePat k) = closePat k := by
  cases k <;> decide

theorem lowerL_openTag (k : TagKind) (ttl : Str) :
    lowerL (openTagOf k ttl) = '[' :: (kindStr k ++ ('=' :: (lowerL ttl ++ [']']))) := by
  have h1 : Char.toLower '[' = '[' := by decide
  have h2 : Char.toLower '=' = '=' := by decide
  have h3 : Char.toLower ']' = ']' := by decide
  simp [openTagOf, lowerL, h1, h2, h3]
  rw [show List.map Char.toLower (kindStr k) = lowerL (kindStr k) from rfl, lowerL_kindStr]

/- The patterns of one kind do not match at the head of a tag of another
kind, and a closing pattern never matches at the head of an opening tag. -/

theorem np_open_open {k k' : TagKind} (hne : k ≠ k') (r X : Str) :
    ¬ openPat k <+: ('[' :: (kindStr k' ++ r)) ++ X := by
  cases k <;> cases k' <;> simp_all [openPat, kindStr, List.cons_prefix_cons]

theorem np_close_open (k k' : TagKind) (r X : Str) :
    ¬ closePat k <+: ('[' :: (kindStr k' ++ r)) ++ X := by
  cases k <;> cases k' <;> simp [closePat, kindStr, List.cons_prefix_cons]

theorem np_open_close (k k' : TagKind) (X : Str) :
    ¬ openPat k <+: closePat k' ++ X := by
  cases k <;> cases k' <;> simp [openPat, closePat, kindStr, List.cons_prefix_cons]

theorem np_close_close {k k' : TagKind} (hne : k ≠ k') (X : Str) :
    ¬ closePat k <+: closePat k' ++ X := by
  cases k <;> cases k' <;> simp_all [closePat, kindStr, List.cons_prefix_cons]

/- No scan pattern occurrence begins inside a bracket-free segment, nor past
the head of a region whose body is bracket-free. -/

theorem no_hit_of_no_bracket {pat : Str} (hp : pat.head? = some '[') {t : Str}
    (ht : ∀ c ∈ t, c ≠ '[') (X : Str) :
    ∀ i, i < t.length → ¬ pat <+: (t ++ X).drop i := by
  intro i hi
  rw [List.drop_append_of_le_length (Nat.le_of_lt hi)]
  cases hd : t.drop i with
  | nil =>
    have : t.length ≤ i := by
      by_contra hcon
      have := congrArg List.length hd
      simp at this
      omega
    omega
  | cons c r =>
    have hc : c ∈ t := by
      have : c ∈ t.drop i := by rw [hd]; exact List.mem_cons_self c r
      exact List.drop_subset i t this
    rw [List.cons_append]
    exact not_prefix_cons_of_head_ne hp (ht c hc)

theorem no_hit_region {pat : Str} (hp : pat.head? = some '[') {c : Char} {body : Str}
    (hb : ∀ ch ∈ body, ch ≠ '[') (X : Str)
    (h0 : ¬ pat <+: (c :: body) ++ X) :
    ∀ i, i < (c :: body).length → ¬ pat <+: ((c :: body) ++ X).drop i := by
  intro i hi
  cases i with
  | zero => simpa using h0
  | succ i' =>
    have hi' : i' < body.length := by simp at hi; omega
    have := no_hit_of_no_bracket hp hb X i' hi'
    simpa using this

theorem openPat_pos (k : TagKind) : 0 < (openPat k).length := by
  cases k <;> decide

theorem closePat_pos (k : TagKind) : 0 < (closePat k).length := by
  cases k <;> decide

theorem wfTitle_ne_nil {ttl : Str} (h : wfTitle ttl = true) : ttl ≠ [] := by
  simp [wfTitle] at h
  exact h.1

theorem wfTitle_mem {ttl : Str} (h : wfTitle ttl = true) {c : Char} (hc : c ∈ ttl) :
    c ≠ '[' ∧ c ≠ ']' := by
  simp [wfTitle] at h
  have := h.2 c hc
  simpa using this

theorem kindStr_no_bracket (k : TagKind) {ch : Char} (h : ch ∈ kindStr k) : ch ≠ '[' := by
  cases k <;> simp [kindStr] at h <;> rcases h with rfl | rfl | rfl | rfl | rfl | rfl | rfl <;> decide

theorem openTag_body_no_bracket (k : TagKind) {ttl : Str} (httl : wfTitle ttl = true) :
    ∀ ch ∈ kindStr k ++ ('=' :: (lowerL ttl ++ [']'])), ch ≠ '[' := by
  intro ch hch
  rcases List.mem_append.mp hch with h | h
  · exact kindStr_no_bracket k h
  · rcases h with _ | ⟨_, h⟩
    · decide
    · rcases List.mem_append.mp h with h2 | h2
      · obtain ⟨c0, hc0, hc0l⟩ := List.mem_map.mp h2
        rw [← hc0l]
        exact toLower_ne_bracket (wfTitle_mem httl hc0).1
      · simp at h2
        rw [h2]
        decide

theorem closeTag_body_no_bracket (k : TagKind) :
    ∀ ch ∈ '/' :: (kindStr k ++ [']']), ch ≠ '[' := by
  intro ch hch
  rcases hch with _ | ⟨_, hch⟩
  · decide
  · rcases List.mem_append.mp hch with h | h
    · exact kindStr_no_bracket k h
    · simp at h
      rw [h]
      decide

theorem no_hit_openTag_o {k k' : TagKind} (hne : k ≠ k') {ttl : Str}
    (httl : wfTitle ttl = true) (X : Str) :
    ∀ i, i < (lowerL (openTagOf k' ttl)).length →
      ¬ openPat k <+: (lowerL (openTagOf k' ttl) ++ X).drop i := by
  rw [lowerL_openTag]
  exact no_hit_region (openPat_head k) (openTag_body_no_bracket k' httl) X
    (np_open_open hne _ X)

theorem no_hit_openTag_c (k k' : TagKind) {ttl : Str}
    (httl : wfTitle ttl = true) (X : Str) :
    ∀ i, i < (lowerL (openTagOf k' ttl)).length →
      ¬ closePat k <+: (lowerL (openTagOf k' ttl) ++ X).drop i := by
  rw [lowerL_openTag]
  exact no_hit_region (closePat_head k) (openTag_body_no_bracket k' httl) X
    (np_close_open k k' _ X)

theorem no_hit_closeTag_o (k k' : TagKind) (X : Str) :
    ∀ i, i < (closePat k').length → ¬ openPat k <+: (closePat k' ++ X).drop i :=
  no_hit_region (openPat_head k) (closeTag_body_no_bracket k') X (np_open_close k k' X)

theorem no_hit_closeTag_c {k k' : TagKind} (hne : k ≠ k') (X : Str) :
    ∀ i, i < (closePat k').length → ¬ closePat k <+: (closePat k' ++ X).drop i :=
  no_hit_region (closePat_head k) (closeTag_body_no_bracket k') X (np_close_close hne X)

theorem firstIdx_zero_of_hit (pat s : Str) (h : pat <+: s) : firstIdx pat s = some 0 := by
  cases s with
  | nil => rw [firstIdx_nil, if_pos (List.isPrefixOf_iff_prefix.mpr h)]
  | cons c cs => rw [firstIdx_cons, if_pos (List.isPrefixOf_iff_prefix.mpr h)]

theorem scanClose_at (low opat cpat : Str) (hop : 0 < opat.length) (hcp : 0 < cpat.length)
    (depth p : Nat) :
    scanClose low opat cpat depth p =
      (scanClose (low.drop p) opat cpat depth 0).map (fun q => (q.1 + p, q.2 + p)) := by
  have := scanClose_shift low opat cpat hop hcp depth p 0
  simpa using this

/-- One step of the scan on a string whose head is a same-kind opening tag
occurrence: the depth is incremented and the position moves past the opening
search string. -/
theorem scanClose_open_step (low opat cpat : Str) (hop : 0 < opat.length)
    (hcp : 0 < cpat.length) (depth nc : Nat) (hdep : 0 < depth)
    (hco : firstIdx cpat low = some nc) (hncpos : 0 < nc)
    (hoo : firstIdx opat low = some 0) :
    scanClose low opat cpat depth 0 = scanClose low opat cpat (depth + 1) opat.length := by
  have hlow : 0 < low.length := by
    have h1 := (firstIdx_spec_some cpat low nc hco).1
    have h2 := h1.length_le
    rw [List.length_drop] at h2
    omega
  rw [scanClose_step low opat cpat hop hcp depth 0]
  rw [if_pos ⟨hlow, hdep⟩]
  simp only [List.drop_zero, hco, hoo, Option.map_some', Nat.add_zero, Nat.zero_add]
  rw [if_pos hncpos]

/-- One step of the scan on a string whose head is a closing tag occurrence,
while the depth is still above one: the depth is decremented and the position
moves past the closing tag. -/
theorem scanClose_close_step (low opat cpat : Str) (hop : 0 < opat.length)
    (hcp : 0 < cpat.length) (depth : Nat) (hdep : 1 < depth)
    (hc0 : firstIdx cpat low = some 0) :
    scanClose low opat cpat depth 0 = scanClose low opat cpat (depth - 1) cpat.length := by
  have hlow : 0 < low.length := by
    have h1 := (firstIdx_spec_some cpat low 0 hc0).1
    have h2 := h1.length_le
    rw [List.length_drop] at h2
    omega
  rw [scanClose_step low opat cpat hop hcp depth 0]
  rw [if_pos ⟨hlow, by omega⟩]
  simp only [List.drop_zero, hc0, Option.map_some', Nat.add_zero, Nat.zero_add]
  cases ho : firstIdx opat low with
  | none =>
    simp only [Option.map_none']
    rw [if_neg (by omega)]
  | some j =>
    simp only [Option.map_some', Nat.add_zero]
    rw [if_neg (by omega), if_neg (by omega)]

/-- The final step of the scan: a closing tag occurrence at the head while
the depth is one produces the match at index zero. -/
theorem scanClose_final_step (low opat cpat : Str) (hop : 0 < opat.length)
    (hcp : 0 < cpat.length) (hc0 : firstIdx cpat low = some 0) :
    scanClose low opat cpat 1 0 = some (0, cpat.length) := by
  have hlow : 0 < low.length := by
    have h1 := (firstIdx_spec_some cpat low 0 hc0).1
    have h2 := h1.length_le
    rw [List.length_drop] at h2
    omega
  rw [scanClose_step low opat cpat hop hcp 1 0]
  rw [if_pos ⟨hlow, by omega⟩]
  simp only [List.drop_zero, hc0, Option.map_some', Nat.add_zero, Nat.zero_add]
  cases ho : firstIdx opat low with
  | none => simp
  | some j =>
    simp only [Option.map_some', Nat.add_zero]
    rw [if_neg (by omega)]
    simp

theorem wfDoc_txt {t : Str} {d : BDoc} (h : wfDoc (BDoc.txt t d) = true) :
    wfText t = true ∧ wfDoc d = true := by
  simpa [wfDoc, Bool.and_eq_true] using h

theorem wfDoc_blk {k : TagKind} {ttl : Str} {inner rest : BDoc}
    (h : wfDoc (BDoc.blk k ttl inner rest) = true) :
    wfTitle ttl = true ∧ wfDoc inner = true ∧ wfDoc rest = true := by
  simpa [wfDoc, Bool.and_eq_true, and_assoc] using h

theorem openPat_prefix_openTag (k : TagKind) (r X : Str) :
    openPat k <+: ('[' :: (kindStr k ++ r)) ++ X := by
  simp only [openPat, List.cons_append, List.cons_prefix_cons, true_and]
  rw [List.append_assoc]
  exact List.prefix_append _ _

theorem eqSeg_no_bracket {ttl : Str} (httl : wfTitle ttl = true) :
    ∀ ch ∈ '=' :: (lowerL ttl ++ [']']), ch ≠ '[' := by
  intro ch hch
  rcases hch with _ | ⟨_, hch⟩
  · decide
  · rcases List.mem_append.mp hch with h | h
    · obtain ⟨c0, hc0, hc0l⟩ := List.mem_map.mp h
      rw [← hc0l]
      exact toLower_ne_bracket (wfTitle_mem httl hc0).1
    · simp at h
      rw [h]
      decide

theorem drop_openPat_openTag (k : TagKind) (ttl X : Str) :
    (('[' :: (kindStr k ++ ('=' :: (lowerL ttl ++ [']'])))) ++ X).drop (openPat k).length =
      ('=' :: (lowerL ttl ++ [']'])) ++ X := by
  have hlen : (openPat k).length = (kindStr k).length + 1 := by simp [openPat]
  rw [hlen, List.cons_append, List.drop_succ_cons, List.append_assoc, List.drop_left]

/-- Transparency of a rendered well-formed document for the depth-counting
scan: scanning across the rendering returns to the same depth and continues
in the tail, with all positions shifted by the length of the rendering.  In
particular nested blocks of either kind never make the scan lose track of
the closing tag it is looking for. -/
theorem scanClose_render (k : TagKind) (d : BDoc) :
    wfDoc d = true → ∀ (tail : Str) (depth : Nat), 0 < depth →
      scanClose (lowerL (renderDoc d) ++ tail) (openPat k) (closePat k) depth 0 =
        (scanClose tail (openPat k) (closePat k) depth 0).map
          (fun q => (q.1 + (renderDoc d).length, q.2 + (renderDoc d).length)) := by
  induction d with
  | nil =>
    intro _ tail depth _
    simp only [renderDoc, lowerL, List.map_nil, List.nil_append, List.length_nil]
    cases scanClose tail (openPat k) (closePat k) depth 0 <;> simp
  | txt t rest ih =>
    intro hwf tail depth hdep
    obtain ⟨hwt, hwr⟩ := wfDoc_txt hwf
    have hlow : lowerL (renderDoc (BDoc.txt t rest)) ++ tail =
        lowerL t ++ (lowerL (renderDoc rest) ++ tail) := by
      simp [renderDoc, lowerL, List.map_append, List.append_assoc]
    rw [hlow,
      scanClose_skip (openPat k) (closePat k) (openPat_pos k) (closePat_pos k)
        (lowerL t) (lowerL (renderDoc rest) ++ tail)
        (no_hit_of_no_bracket (openPat_head k) (lowerL_no_bracket hwt) _)
        (no_hit_of_no_bracket (closePat_head k) (lowerL_no_bracket hwt) _) depth,
      ih hwr tail depth hdep]
    cases scanClose tail (openPat k) (closePat k) depth 0 with
    | none => rfl
    | some q =>
      simp only [Option.map_some', Option.some.injEq, Prod.mk.injEq]
      simp only [renderDoc, lowerL, List.length_map, List.length_append]
      constructor <;> omega
  | blk k' ttl inner rest ih_inner ih_rest =>
    intro hwf tail depth hdep
    obtain ⟨httl, hwin, hwre⟩ := wfDoc_blk hwf
    have hlow : lowerL (renderDoc (BDoc.blk k' ttl inner rest)) ++ tail =
        lowerL (openTagOf k' ttl) ++
          (lowerL (renderDoc inner) ++ (closePat k' ++ (lowerL (renderDoc rest) ++ tail))) := by
      simp only [renderDoc, lowerL, List.map_append, List.append_assoc]
      rw [show List.map Char.toLower (closePat k') = closePat k' from lowerL_closePat k']
    rw [hlow]
    by_cases hk : k = k'
    · subst hk
      set L := lowerL (openTagOf k ttl) ++
        (lowerL (renderDoc inner) ++ (closePat k ++ (lowerL (renderDoc rest) ++ tail)))
        with hL
      have hopen0 : firstIdx (openPat k) L = some 0 := by
        rw [hL, lowerL_openTag]
        exact firstIdx_zero_of_hit _ _ (openPat_prefix_openTag k _ _)
      have hcocc : closePat k <+:
          L.drop ((lowerL (openTagOf k ttl)).length + (lowerL (renderDoc inner)).length) := by
        rw [hL, ← List.append_assoc, ← List.length_append, List.drop_left]
        exact List.prefix_append _ _
      obtain ⟨nc, hnc⟩ := firstIdx_isSome_of_hit (closePat k) L _ hcocc
      have hncpos : 0 < nc := by
        rcases Nat.eq_zero_or_pos nc with h0 | h
        · exfalso
          have hpre := (firstIdx_spec_some _ _ _ hnc).1
          rw [h0, List.drop_zero, hL, lowerL_openTag] at hpre
          exact np_close_open k k _ _ hpre
        · exact h
      rw [scanClose_open_step L (openPat k) (closePat k) (openPat_pos k) (closePat_pos k)
        depth nc hdep hnc hncpos hopen0]
      rw [scanClose_at L (openPat k) (closePat k) (openPat_pos k) (closePat_pos k)
        (depth + 1) (openPat k).length]
      have hdrop : L.drop (openPat k).length =
          ('=' :: (lowerL ttl ++ [']'])) ++
            (lowerL (renderDoc inner) ++ (closePat k ++ (lowerL (renderDoc rest) ++ tail))) := by
        rw [hL, lowerL_openTag]
        exact drop_openPat_openTag k ttl _
      rw [hdrop]
      rw [scanClose_skip (openPat k) (closePat k) (openPat_pos k) (closePat_pos k)
        ('=' :: (lowerL ttl ++ [']'])) _
        (no_hit_of_no_bracket (openPat_head k) (eqSeg_no_bracket httl) _)
        (no_hit_of_no_bracket (closePat_head k) (eqSeg_no_bracket httl) _) (depth + 1)]
      rw [ih_inner hwin (closePat k ++ (lowerL (renderDoc rest) ++ tail)) (depth + 1)
        (by omega)]
      have hc0 : firstIdx (closePat k)
          (closePat k ++ (lowerL (renderDoc rest) ++ tail)) = some 0 :=
        firstIdx_zero_of_hit _ _ (List.prefix_append _ _)
      rw [scanClose_close_step _ (openPat k) (closePat k) (openPat_pos k) (closePat_pos k)
        (depth + 1) (by omega) hc0]
      simp only [Nat.add_sub_cancel]
      rw [scanClose_at _ (openPat k) (closePat k) (openPat_pos k) (closePat_pos k)
        depth (closePat k).length]
      rw [List.drop_left]
      rw [ih_rest hwre tail depth hdep]
      cases scanClose tail (openPat k) (closePat k) depth 0 with
      | none => rfl
      | some q =>
        simp only [Option.map_some', Option.some.injEq, Prod.mk.injEq]
        simp only [renderDoc, List.length_append, lowerL, List.length_map, openTagOf,
          closePat, List.length_cons, openPat]
        constructor <;> omega
    · rw [scanClose_skip (openPat k) (closePat k) (openPat_pos k) (closePat_pos k)
        (lowerL (openTagOf k' ttl)) _
        (no_hit_openTag_o hk httl _) (no_hit_openTag_c k k' httl _) depth,
        ih_inner hwin (closePat k' ++ (lowerL (renderDoc rest) ++ tail)) depth hdep,
        scanClose_skip (openPat k) (closePat k) (openPat_pos k) (closePat_pos k)
          (closePat k') (lowerL (renderDoc rest) ++ tail)
          (no_hit_closeTag_o k k' _) (no_hit_closeTag_c hk _) depth,
        ih_rest hwre tail depth hdep]
      cases scanClose tail (openPat k) (closePat k) depth 0 with
      | none => rfl
      | some q =>
        simp only [Option.map_some', Option.some.injEq, Prod.mk.injEq]
        simp only [renderDoc, List.length_append, lowerL, List.length_map, openTagOf,
          closePat, List.length_cons, openPat]
        constructor <;> omega

/- Behaviour of the opening-tag matcher on rendered documents. -/

theorem matchOpenHere_ne {c : Char} (cs : Str) (hc : c ≠ '[') :
    matchOpenHere (c :: cs) = none := by
  unfold matchOpenHere
  split
  · rename_i rest heq
    injection heq with h1 h2
    exact absurd h1 hc
  · rfl

theorem findFirstOpen_skip {t : Str} (ht : ∀ c ∈ t, c ≠ '[') (X : Str) :
    findFirstOpen (t ++ X) =
      (findFirstOpen X).map (fun x : Nat × TagKind × Str × Nat => (x.1 + t.length, x.2)) := by
  induction t with
  | nil =>
    cases h : findFirstOpen X with
    | none => simp [h]
    | some v => simp [h]
  | cons c t' ih =>
    have hc : c ≠ '[' := ht c (List.mem_cons_self c t')
    have ht' : ∀ ch ∈ t', ch ≠ '[' := fun ch hch => ht ch (List.mem_cons_of_mem c hch)
    rw [List.cons_append]
    show (match matchOpenHere (c :: (t' ++ X)) with
      | some (k, ttl, len) => some (0, k, ttl, len)
      | none => (findFirstOpen (t' ++ X)).map
          (fun x : Nat × TagKind × Str × Nat => (x.1 + 1, x.2))) = _
    rw [matchOpenHere_ne _ hc, ih ht']
    cases findFirstOpen X with
    | none => rfl
    | some v =>
      simp only [Option.map_some', Option.some.injEq, List.length_cons]
      rw [Nat.add_assoc]

theorem ciStarts_self {w : Str} (hw : ∀ c ∈ w, Char.toLower c = c) (r : Str) :
    ciStarts w (w ++ r) = true := by
  induction w with
  | nil => rfl
  | cons c ps ih =>
    rw [List.cons_append]
    show (Char.toLower c = c && ciStarts ps (ps ++ r)) = true
    rw [ih (fun ch hch => hw ch (List.mem_cons_of_mem c hch)),
      hw c (List.mem_cons_self c ps)]
    simp

theorem kindStr_lower_fixed (k : TagKind) : ∀ c ∈ kindStr k, Char.toLower c = c := by
  cases k <;> intro c hc <;> simp [kindStr] at hc <;>
    rcases hc with rfl | rfl | rfl | rfl | rfl | rfl | rfl <;> decide

theorem takeWhile_append_stop {p : Char → Bool} {a : Str} (ha : ∀ c ∈ a, p c = true)
    {b0 : Char} (hb : p b0 = false) (bs : Str) :
    (a ++ b0 :: bs).takeWhile p = a := by
  induction a with
  | nil => simp [List.takeWhile, hb]
  | cons c a' ih =>
    rw [List.cons_append]
    have hc := ha c (List.mem_cons_self c a')
    simp [List.takeWhile, hc, ih (fun ch hch => ha ch (List.mem_cons_of_mem c hch))]

theorem openTag_length (k : TagKind) (ttl : Str) :
    (openTagOf k ttl).length = 1 + (kindStr k).length + 1 + ttl.length + 1 := by
  simp [openTagOf]
  omega

theorem tryKindTag_self (k : TagKind) {ttl : Str} (httl : wfTitle ttl = true) (X : Str) :
    tryKindTag k (kindStr k ++ ('=' :: (ttl ++ (']' :: X)))) =
      some (k, ttl, 1 + (kindStr k).length + 1 + ttl.length + 1) := by
  unfold tryKindTag
  rw [if_pos (ciStarts_self (kindStr_lower_fixed k) _)]
  have hdrop : (kindStr k ++ ('=' :: (ttl ++ (']' :: X)))).drop (kindStr k).length =
      '=' :: (ttl ++ (']' :: X)) := List.drop_left _ _
  rw [hdrop]
  have htw : (ttl ++ (']' :: X)).takeWhile (fun c => c ≠ ']') = ttl := by
    apply takeWhile_append_stop
    · intro c hc
      simp [(wfTitle_mem httl hc).2]
    · simp
  simp only [htw]
  have hdrop2 : (ttl ++ (']' :: X)).drop ttl.length = ']' :: X := List.drop_left _ _
  rw [if_pos ⟨wfTitle_ne_nil httl, by rw [hdrop2]; rfl⟩]

theorem findFirstOpen_cons (c : Char) (cs : Str) :
    findFirstOpen (c :: cs) =
      match matchOpenHere (c :: cs) with
      | some (k, ttl, len) => some (0, k, ttl, len)
      | none => (findFirstOpen cs).map (fun x => (x.1 + 1, x.2)) := rfl

theorem matchOpenHere_openTag (k : TagKind) {ttl : Str} (httl : wfTitle ttl = true) (X : Str) :
    matchOpenHere (openTagOf k ttl ++ X) = some (k, ttl, (openTagOf k ttl).length) := by
  have hshape : openTagOf k ttl ++ X = '[' :: (kindStr k ++ ('=' :: (ttl ++ (']' :: X)))) := by
    simp [openTagOf, List.cons_append, List.append_assoc]
  rw [hshape]
  show (tryKindTag TagKind.quote (kindStr k ++ ('=' :: (ttl ++ (']' :: X))))).orElse
      (fun _ => tryKindTag TagKind.spoiler (kindStr k ++ ('=' :: (ttl ++ (']' :: X))))) = _
  cases k with
  | quote =>
    rw [tryKindTag_self TagKind.quote httl X, openTag_length]
    rfl
  | spoiler =>
    have hq : tryKindTag TagKind.quote
        (kindStr TagKind.spoiler ++ ('=' :: (ttl ++ (']' :: X)))) = none := by
      unfold tryKindTag
      have hci : ciStarts (kindStr TagKind.quote)
          (kindStr TagKind.spoiler ++ ('=' :: (ttl ++ (']' :: X)))) = false := rfl
      rw [hci]
      simp
    rw [hq, tryKindTag_self TagKind.spoiler httl X, openTag_length]
    rfl

theorem findFirstOpen_openTag (k : TagKind) {ttl : Str} (httl : wfTitle ttl = true) (X : Str) :
    findFirstOpen (openTagOf k ttl ++ X) = some (0, k, ttl, (openTagOf k ttl).length) := by
  have hshape : openTagOf k ttl ++ X =
      '[' :: ((kindStr k ++ ('=' :: (ttl ++ [']']))) ++ X) := by
    simp [openTagOf, List.cons_append]
  have h' := matchOpenHere_openTag k httl X
  rw [hshape] at h' ⊢
  rw [findFirstOpen_cons, h']

/- Fuel bookkeeping for the outer extraction loop. -/

theorem tryKindTag_mlen {k : TagKind} {rest : Str} {k' : TagKind} {ttl : Str} {m : Nat}
    (h : tryKindTag k rest = some (k', ttl, m)) : 0 < m := by
  unfold tryKindTag at h
  split at h
  · split at h
    · simp only [] at h
      split at h
      · cases h
        omega
      · cases h
    · cases h
  · cases h

theorem matchOpenHere_mlen {s : Str} {k : TagKind} {ttl : Str} {m : Nat}
    (h : matchOpenHere s = some (k, ttl, m)) : 0 < m := by
  cases s with
  | nil => cases h
  | cons c cs =>
    by_cases hc : c = '['
    · subst hc
      have h' : (tryKindTag TagKind.quote cs).orElse
          (fun _ => tryKindTag TagKind.spoiler cs) = some (k, ttl, m) := h
      cases hq : tryKindTag TagKind.quote cs with
      | some v =>
        rw [hq] at h'
        simp only [Option.orElse, Option.some.injEq] at h'
        subst h'
        exact tryKindTag_mlen hq
      | none =>
        rw [hq] at h'
        simp only [Option.orElse] at h'
        exact tryKindTag_mlen h'
    · rw [matchOpenHere_ne cs hc] at h
      cases h

theorem findFirstOpen_mlen {s : Str} {i : Nat} {k : TagKind} {ttl : Str} {m : Nat}
    (h : findFirstOpen s = some (i, k, ttl, m)) : 0 < m := by
  induction s generalizing i k ttl m with
  | nil => cases h
  | cons c cs ih =>
    rw [findFirstOpen_cons] at h
    cases hm : matchOpenHere (c :: cs) with
    | some v =>
      obtain ⟨k0, t0, m0⟩ := v
      rw [hm] at h
      cases h
      exact matchOpenHere_mlen hm
    | none =>
      rw [hm] at h
      cases hf : findFirstOpen cs with
      | none => rw [hf] at h; cases h
      | some w =>
        obtain ⟨i0, k0, t0, m0⟩ := w
        rw [hf] at h
        cases h
        exact ih hf

theorem findFirstOpen_ne_nil {s : Str} {v : Nat × TagKind × Str × Nat}
    (h : findFirstOpen s = some v) : s ≠ [] := by
  intro hnil
  rw [hnil] at h
  cases h

theorem extractF_mono :
    ∀ f₁ f₂ s, s.length < f₁ → s.length < f₂ → extractF f₁ s = extractF f₂ s := by
  intro f₁
  induction f₁ with
  | zero => intro f₂ s h₁ _; omega
  | succ f₁' ih =>
    intro f₂ s h₁ h₂
    cases f₂ with
    | zero => omega
    | succ f₂' =>
      simp only [extractF]
      split
      · rfl
      · rename_i v idx k ttl m hf
        have hm : 0 < m := findFirstOpen_mlen hf
        have hslen : 0 < s.length := List.length_pos.mpr (findFirstOpen_ne_nil hf)
        split
        · rename_i q e p' hsc
          have hb := scanClose_some_bound _ _ _ _ _ _ _ hsc
          have hp' : 0 < p' := by
            have := closePat_pos k
            omega
          congr 1
          exact ih f₂' (s.drop p') (by rw [List.length_drop]; omega)
            (by rw [List.length_drop]; omega)
        · exact ih f₂' (s.drop (idx + m)) (by rw [List.length_drop]; omega)
            (by rw [List.length_drop]; omega)

theorem extract_step (s : Str) :
    extractOutermostQuotes s =
      match findFirstOpen s with
      | none => []
      | some (idx, k, title, mlen) =>
        match scanClose (lowerL s) (openPat k) (closePat k) 1 (idx + mlen) with
        | some (endIndex, posAfter) =>
          (trimL title, (s.drop (idx + mlen)).take (endIndex - (idx + mlen))) ::
            extractOutermostQuotes (s.drop posAfter)
        | none => extractOutermostQuotes (s.drop (idx + mlen)) := by
  show extractF (s.length + 1) s = _
  simp only [extractF]
  split
  · rfl
  · rename_i v idx k ttl m hf
    have hm : 0 < m := findFirstOpen_mlen hf
    have hslen : 0 < s.length := List.length_pos.mpr (findFirstOpen_ne_nil hf)
    split
    · rename_i q e p' hsc
      have hb := scanClose_some_bound _ _ _ _ _ _ _ hsc
      have hp' : 0 < p' := by
        have := closePat_pos k
        omega
      congr 1
      exact extractF_mono s.length ((s.drop p').length + 1) (s.drop p')
        (by rw [List.length_drop]; omega) (by omega)
    · exact extractF_mono s.length ((s.drop (idx + m)).length + 1) (s.drop (idx + m))
        (by rw [List.length_drop]; omega) (by omega)

/- A bracket-free prefix does not change the extraction result. -/

theorem extract_skip {t : Str} (ht : ∀ c ∈ t, c ≠ '[') (X : Str) :
    extractOutermostQuotes (t ++ X) = extractOutermostQuotes X := by
  rw [extract_step (t ++ X), extract_step X, findFirstOpen_skip ht X]
  cases hf : findFirstOpen X with
  | none => rfl
  | some v =>
    obtain ⟨i, k, ttl, m⟩ := v
    simp only [Option.map_some']
    have hlow : lowerL (t ++ X) = lowerL t ++ lowerL X := List.map_append _ _ _
    have harith : i + t.length + m = (lowerL t).length + (i + m) := by
      simp only [lowerL, List.length_map]
      omega
    rw [hlow, harith, scanClose_shift (lowerL t ++ lowerL X) (openPat k) (closePat k)
      (openPat_pos k) (closePat_pos k) 1 (lowerL t).length (i + m), List.drop_left]
    cases hsc : scanClose (lowerL X) (openPat k) (closePat k) 1 (i + m) with
    | none =>
      simp only [Option.map_none']
      have hdrop : (t ++ X).drop ((lowerL t).length + (i + m)) = X.drop (i + m) := by
        simp only [lowerL, List.length_map]
        exact List.drop_append _
      rw [hdrop]
    | some q =>
      obtain ⟨e, p'⟩ := q
      simp only [Option.map_some']
      have hdrop1 : (t ++ X).drop ((lowerL t).length + (i + m)) = X.drop (i + m) := by
        simp only [lowerL, List.length_map]
        exact List.drop_append _
      have hdrop2 : (t ++ X).drop (p' + (lowerL t).length) = X.drop p' := by
        simp only [lowerL, List.length_map]
        rw [Nat.add_comm]
        exact List.drop_append _
      have htake : e + (lowerL t).length - ((lowerL t).length + (i + m)) = e - (i + m) := by
        omega
      rw [hdrop1, hdrop2, htake]

/-- The central refinement: on the rendering of any well-formed document the
extractor returns exactly the outermost blocks, each paired with the verbatim
rendering of its nested content. -/
theorem extract_render (d : BDoc) :
    wfDoc d = true → extractOutermostQuotes (renderDoc d) = outerBlocks d := by
  induction d with
  | nil => intro _; rfl
  | txt t rest ih =>
    intro hwf
    obtain ⟨hwt, hwr⟩ := wfDoc_txt hwf
    show extractOutermostQuotes (t ++ renderDoc rest) = outerBlocks rest
    rw [extract_skip (fun c hc => wfText_mem hwt hc) _, ih hwr]
  | blk k ttl inner rest ih_inner ih_rest =>
    intro hwf
    obtain ⟨httl, hwin, hwre⟩ := wfDoc_blk hwf
    show extractOutermostQuotes
        (openTagOf k ttl ++ (renderDoc inner ++ (closePat k ++ renderDoc rest))) =
      (trimL ttl, renderDoc inner) :: outerBlocks rest
    have hlow : lowerL (openTagOf k ttl ++ (renderDoc inner ++ (closePat k ++ renderDoc rest))) =
        lowerL (openTagOf k ttl) ++
          (lowerL (renderDoc inner) ++ (closePat k ++ lowerL (renderDoc rest))) := by
      simp only [lowerL, List.map_append]
      rw [show List.map Char.toLower (closePat k) = closePat k from lowerL_closePat k]
    have hscan : scanClose
        (lowerL (openTagOf k ttl ++ (renderDoc inner ++ (closePat k ++ renderDoc rest))))
        (openPat k) (closePat k) 1 (0 + (openTagOf k ttl).length) =
        some ((renderDoc inner).length + (openTagOf k ttl).length,
          (closePat k).length + (renderDoc inner).length + (openTagOf k ttl).length) := by
      rw [hlow, Nat.zero_add]
      rw [scanClose_at _ (openPat k) (closePat k) (openPat_pos k) (closePat_pos k) 1
        (openTagOf k ttl).length]
      have hdrop : (lowerL (openTagOf k ttl) ++
          (lowerL (renderDoc inner) ++ (closePat k ++ lowerL (renderDoc rest)))).drop
            (openTagOf k ttl).length =
          lowerL (renderDoc inner) ++ (closePat k ++ lowerL (renderDoc rest)) := by
        rw [show (openTagOf k ttl).length = (lowerL (openTagOf k ttl)).length from
          (List.length_map _ _).symm]
        exact List.drop_left _ _
      rw [hdrop]
      rw [scanClose_render k inner hwin (closePat k ++ lowerL (renderDoc rest)) 1 (by omega)]
      rw [scanClose_final_step _ (openPat k) (closePat k) (openPat_pos k) (closePat_pos k)
        (firstIdx_zero_of_hit _ _ (List.prefix_append _ _))]
      simp only [Option.map_some', Nat.zero_add]
    rw [extract_step]
    simp only [findFirstOpen_openTag k httl]
    cases hsc2 : scanClose
        (lowerL (openTagOf k ttl ++ (renderDoc inner ++ (closePat k ++ renderDoc rest))))
        (openPat k) (closePat k) 1 (0 + (openTagOf k ttl).length) with
    | none => rw [hscan] at hsc2; cases hsc2
    | some q =>
      obtain ⟨e, p'⟩ := q
      rw [hscan] at hsc2
      simp only [Option.some.injEq, Prod.mk.injEq] at hsc2
      obtain ⟨he, hp⟩ := hsc2
      subst he
      subst hp
      simp only []
      have hcontent : ((openTagOf k ttl ++
          (renderDoc inner ++ (closePat k ++ renderDoc rest))).drop
            (0 + (openTagOf k ttl).length)).take
          ((renderDoc inner).length + (openTagOf k ttl).length -
            (0 + (openTagOf k ttl).length)) = renderDoc inner := by
        rw [Nat.zero_add, List.drop_left]
        rw [show (renderDoc inner).length + (openTagOf k ttl).length -
          (openTagOf k ttl).length = (renderDoc inner).length from by omega]
        exact List.take_left _ _
      have hdropR : (openTagOf k ttl ++
          (renderDoc inner ++ (closePat k ++ renderDoc rest))).drop
            ((closePat k).length + (renderDoc inner).length + (openTagOf k ttl).length) =
          renderDoc rest := by
        rw [show (closePat k).length + (renderDoc inner).length + (openTagOf k ttl).length =
          (openTagOf k ttl ++ (renderDoc inner ++ closePat k)).length from by
            simp [List.length_append]
            omega]
        rw [show openTagOf k ttl ++ (renderDoc inner ++ (closePat k ++ renderDoc rest)) =
          (openTagOf k ttl ++ (renderDoc inner ++ closePat k)) ++ renderDoc rest from by
            simp [List.append_assoc]]
        exact List.drop_left _ _
      rw [hcontent, hdropR, ih_rest hwre]

/- Inputs with no closing tag at all: the scan always fails and the
extractor, skipping every unmatched opener, returns the empty list. -/

theorem firstIdx_drop_none {pat s : Str} (h : firstIdx pat s = none) (n : Nat) :
    firstIdx pat (s.drop n) = none := by
  cases hfi : firstIdx pat (s.drop n) with
  | none => rfl
  | some i =>
    exfalso
    have hp := (firstIdx_spec_some _ _ _ hfi).1
    rw [List.drop_drop] at hp
    exact firstIdx_spec_none pat s h (n + i) hp

theorem scanClose_none_of_no_closer (low opat cpat : Str) (hop : 0 < opat.length)
    (hcp : 0 < cpat.length) (depth pos : Nat)
    (h : firstIdx cpat low = none) :
    scanClose low opat cpat depth pos = none := by
  rw [scanClose_step low opat cpat hop hcp depth pos]
  by_cases hg : pos < low.length ∧ 0 < depth
  · rw [if_pos hg, firstIdx_drop_none h pos]
    rfl
  · rw [if_neg hg]

theorem extractF_no_closer :
    ∀ f s, firstIdx (closePat TagKind.quote) (lowerL s) = none →
      firstIdx (closePat TagKind.spoiler) (lowerL s) = none →
      extractF f s = [] := by
  intro f
  induction f with
  | zero => intro s _ _; rfl
  | succ f' ih =>
    intro s hq hs
    simp only [extractF]
    split
    · rfl
    · rename_i v idx k ttl m hf
      have hnone : firstIdx (closePat k) (lowerL s) = none := by
        cases k
        · exact hq
        · exact hs
      rw [scanClose_none_of_no_closer (lowerL s) (openPat k) (closePat k)
        (openPat_pos k) (closePat_pos k) 1 (idx + m) hnone]
      have hlowd : lowerL (s.drop (idx + m)) = (lowerL s).drop (idx + m) :=
        List.map_drop _ _ _
      apply ih
      · rw [hlowd]
        exact firstIdx_drop_none hq _
      · rw [hlowd]
        exact firstIdx_drop_none hs _

theorem extract_no_closer (s : Str)
    (hq : firstIdx (closePat TagKind.quote) (lowerL s) = none)
    (hs : firstIdx (closePat TagKind.spoiler) (lowerL s) = none) :
    extractOutermostQuotes s = [] :=
  extractF_no_closer (s.length + 1) s hq hs

/- An opener with no matching closer is skipped; balanced blocks after it
are still extracted. -/

theorem extract_unmatched (k : TagKind) (T u : Str) (d : BDoc)
    (hT : wfTitle T = true) (hu : ∀ c ∈ u, c ≠ '[') (hwf : wfDoc d = true) :
    extractOutermostQuotes (openTagOf k T ++ (u ++ renderDoc d)) = outerBlocks d := by
  rw [extract_step]
  simp only [findFirstOpen_openTag k hT]
  have hlow : lowerL (openTagOf k T ++ (u ++ renderDoc d)) =
      lowerL (openTagOf k T) ++ (lowerL u ++ lowerL (renderDoc d)) := by
    simp only [lowerL, List.map_append]
  have hscan : scanClose (lowerL (openTagOf k T ++ (u ++ renderDoc d)))
      (openPat k) (closePat k) 1 (0 + (openTagOf k T).length) = none := by
    rw [hlow, Nat.zero_add]
    rw [scanClose_at _ (openPat k) (closePat k) (openPat_pos k) (closePat_pos k) 1
      (openTagOf k T).length]
    have hdrop : (lowerL (openTagOf k T) ++ (lowerL u ++ lowerL (renderDoc d))).drop
        (openTagOf k T).length = lowerL u ++ lowerL (renderDoc d) := by
      rw [show (openTagOf k T).length = (lowerL (openTagOf k T)).length from
        (List.length_map _ _).symm]
      exact List.drop_left _ _
    rw [hdrop]
    rw [scanClose_skip (openPat k) (closePat k) (openPat_pos k) (closePat_pos k)
      (lowerL u) (lowerL (renderDoc d))
      (no_hit_of_no_bracket (openPat_head k) (lowerL_no_bracket (by
        simp only [wfText, List.all_eq_true]
        intro c hc
        simpa using hu c hc)) _)
      (no_hit_of_no_bracket (closePat_head k) (lowerL_no_bracket (by
        simp only [wfText, List.all_eq_true]
        intro c hc
        simpa using hu c hc)) _) 1]
    rw [show lowerL (renderDoc d) = lowerL (renderDoc d) ++ ([] : Str) from
      (List.append_nil _).symm]
    rw [scanClose_render k d hwf [] 1 (by omega)]
    rfl
  cases hsc2 : scanClose (lowerL (openTagOf k T ++ (u ++ renderDoc d)))
      (openPat k) (closePat k) 1 (0 + (openTagOf k T).length) with
  | some q => rw [hscan] at hsc2; cases hsc2
  | none =>
    simp only []
    rw [Nat.zero_add, List.drop_left]
    rw [extract_skip hu _]
    exact extract_render d hwf

/- Inside a quote block, a lone spoiler opener is invisible to the
quote-kind scan: the quote closing tag is found intact. -/

theorem extract_lone_spoiler (T Xt u₁ u₂ : Str) (d : BDoc)
    (hT : wfTitle T = true) (hX : wfTitle Xt = true)
    (hu₁ : ∀ c ∈ u₁, c ≠ '[') (hu₂ : ∀ c ∈ u₂, c ≠ '[') (hwf : wfDoc d = true) :
    extractOutermostQuotes
      (openTagOf TagKind.quote T ++
        (u₁ ++ (openTagOf TagKind.spoiler Xt ++
          (u₂ ++ (closePat TagKind.quote ++ renderDoc d))))) =
      (trimL T, u₁ ++ (openTagOf TagKind.spoiler Xt ++ u₂)) :: outerBlocks d := by
  have hwu₁ : wfText u₁ = true := by
    simp only [wfText, List.all_eq_true]
    intro c hc
    simpa using hu₁ c hc
  have hwu₂ : wfText u₂ = true := by
    simp only [wfText, List.all_eq_true]
    intro c hc
    simpa using hu₂ c hc
  have hne : TagKind.quote ≠ TagKind.spoiler := by decide
  rw [extract_step]
  simp only [findFirstOpen_openTag TagKind.quote hT]
  have hlowW : lowerL (openTagOf TagKind.quote T ++
      (u₁ ++ (openTagOf TagKind.spoiler Xt ++
        (u₂ ++ (closePat TagKind.quote ++ renderDoc d))))) =
      lowerL (openTagOf TagKind.quote T) ++
        (lowerL u₁ ++ (lowerL (openTagOf TagKind.spoiler Xt) ++
          (lowerL u₂ ++ (closePat TagKind.quote ++ lowerL (renderDoc d))))) := by
    simp only [lowerL, List.map_append]
    rw [show List.map Char.toLower (closePat TagKind.quote) = closePat TagKind.quote from
      lowerL_closePat TagKind.quote]
  have hscan : scanClose (lowerL (openTagOf TagKind.quote T ++
      (u₁ ++ (openTagOf TagKind.spoiler Xt ++
        (u₂ ++ (closePat TagKind.quote ++ renderDoc d))))))
      (openPat TagKind.quote) (closePat TagKind.quote) 1
      (0 + (openTagOf TagKind.quote T).length) =
      some (u₁.length + (openTagOf TagKind.spoiler Xt).length + u₂.length +
          (openTagOf TagKind.quote T).length,
        u₁.length + (openTagOf TagKind.spoiler Xt).length + u₂.length +
          (closePat TagKind.quote).length + (openTagOf TagKind.quote T).length) := by
    rw [hlowW, Nat.zero_add]
    rw [scanClose_at _ (openPat TagKind.quote) (closePat TagKind.quote)
      (openPat_pos TagKind.quote) (closePat_pos TagKind.quote) 1
      (openTagOf TagKind.quote T).length]
    have hdrop : (lowerL (openTagOf TagKind.quote T) ++
        (lowerL u₁ ++ (lowerL (openTagOf TagKind.spoiler Xt) ++
          (lowerL u₂ ++ (closePat TagKind.quote ++ lowerL (renderDoc d)))))).drop
          (openTagOf TagKind.quote T).length =
        lowerL u₁ ++ (lowerL (openTagOf TagKind.spoiler Xt) ++
          (lowerL u₂ ++ (closePat TagKind.quote ++ lowerL (renderDoc d)))) := by
      rw [show (openTagOf TagKind.quote T).length =
        (lowerL (openTagOf TagKind.quote T)).length from (List.length_map _ _).symm]
      exact List.drop_left _ _
    rw [hdrop]
    rw [scanClose_skip (openPat TagKind.quote) (closePat TagKind.quote)
      (openPat_pos TagKind.quote) (closePat_pos TagKind.quote)
      (lowerL u₁) _
      (no_hit_of_no_bracket (openPat_head TagKind.quote) (lowerL_no_bracket hwu₁) _)
      (no_hit_of_no_bracket (closePat_head TagKind.quote) (lowerL_no_bracket hwu₁) _) 1]
    rw [scanClose_skip (openPat TagKind.quote) (closePat TagKind.quote)
      (openPat_pos TagKind.quote) (closePat_pos TagKind.quote)
      (lowerL (openTagOf TagKind.spoiler Xt)) _
      (no_hit_openTag_o hne hX _) (no_hit_openTag_c TagKind.quote TagKind.spoiler hX _) 1]
    rw [scanClose_skip (openPat TagKind.quote) (closePat TagKind.quote)
      (openPat_pos TagKind.quote) (closePat_pos TagKind.quote)
      (lowerL u₂) _
      (no_hit_of_no_bracket (openPat_head TagKind.quote) (lowerL_no_bracket hwu₂) _)
      (no_hit_of_no_bracket (closePat_head TagKind.quote) (lowerL_no_bracket hwu₂) _) 1]
    rw [scanClose_final_step _ (openPat TagKind.quote) (closePat TagKind.quote)
      (openPat_pos TagKind.quote) (closePat_pos TagKind.quote)
      (firstIdx_zero_of_hit _ _ (List.prefix_append _ _))]
    simp only [Option.map_some', Option.some.injEq, Prod.mk.injEq, lowerL,
      List.length_map]
    constructor <;> omega
  cases hsc2 : scanClose (lowerL (openTagOf TagKind.quote T ++
      (u₁ ++ (openTagOf TagKind.spoiler Xt ++
        (u₂ ++ (closePat TagKind.quote ++ renderDoc d))))))
      (openPat TagKind.quote) (closePat TagKind.quote) 1
      (0 + (openTagOf TagKind.quote T).length) with
  | none => rw [hscan] at hsc2; cases hsc2
  | some q =>
    obtain ⟨e, p'⟩ := q
    rw [hscan] at hsc2
    simp only [Option.some.injEq, Prod.mk.injEq] at hsc2
    obtain ⟨he, hp⟩ := hsc2
    subst he
    subst hp
    simp only []
    have hcontent : ((openTagOf TagKind.quote T ++
        (u₁ ++ (openTagOf TagKind.spoiler Xt ++
          (u₂ ++ (closePat TagKind.quote ++ renderDoc d))))).drop
          (0 + (openTagOf TagKind.quote T).length)).take
        (u₁.length + (openTagOf TagKind.spoiler Xt).length + u₂.length +
          (openTagOf TagKind.quote T).length -
          (0 + (openTagOf TagKind.quote T).length)) =
        u₁ ++ (openTagOf TagKind.spoiler Xt ++ u₂) := by
      rw [Nat.zero_add, List.drop_left]
      rw [show u₁.length + (openTagOf TagKind.spoiler Xt).length + u₂.length +
        (openTagOf TagKind.quote T).length - (openTagOf TagKind.quote T).length =
        (u₁ ++ (openTagOf TagKind.spoiler Xt ++ u₂)).length from by
          simp [List.length_append]
          omega]
      rw [show u₁ ++ (openTagOf TagKind.spoiler Xt ++
          (u₂ ++ (closePat TagKind.quote ++ renderDoc d))) =
        (u₁ ++ (openTagOf TagKind.spoiler Xt ++ u₂)) ++
          (closePat TagKind.quote ++ renderDoc d) from by
          simp [List.append_assoc]]
      exact List.take_left _ _
    have hdropR : (openTagOf TagKind.quote T ++
        (u₁ ++ (openTagOf TagKind.spoiler Xt ++
          (u₂ ++ (closePat TagKind.quote ++ renderDoc d))))).drop
          (u₁.length + (openTagOf TagKind.spoiler Xt).length + u₂.length +
            (closePat TagKind.quote).length + (openTagOf TagKind.quote T).length) =
        renderDoc d := by
      rw [show u₁.length + (openTagOf TagKind.spoiler Xt).length + u₂.length +
        (closePat TagKind.quote).length + (openTagOf TagKind.quote T).length =
        (openTagOf TagKind.quote T ++ (u₁ ++ (openTagOf TagKind.spoiler Xt ++
          (u₂ ++ closePat TagKind.quote)))).length from by
          simp [List.length_append]
          omega]
      rw [show openTagOf TagKind.quote T ++
          (u₁ ++ (openTagOf TagKind.spoiler Xt ++
            (u₂ ++ (closePat TagKind.quote ++ renderDoc d)))) =
        (openTagOf TagKind.quote T ++ (u₁ ++ (openTagOf TagKind.spoiler Xt ++
          (u₂ ++ closePat TagKind.quote)))) ++ renderDoc d from by
          simp [List.append_assoc]]
      exact List.drop_left _ _
    rw [hcontent, hdropR, extract_render d hwf]

/-- C2: for every input in which all quote blocks are balanced, formalized
as the rendering of a well-formed document tree (raw text free of opening
brackets, titles non-empty and bracket-free), the extractor returns exactly
the outermost blocks in left-to-right order, each content being the verbatim
rendering of the nested markup; and the three-level nesting example yields
exactly one block titled A whose content still contains the inner quote
markers unparsed. -/
theorem c2_outermost_blocks :
    (∀ d : BDoc, wfDoc d = true →
      extractOutermostQuotes (renderDoc d) = outerBlocks d) ∧
    extractOutermostQuotes "[quote=A][quote=B][quote=C]xyz[/quote][/quote][/quote]".data =
      [("A".data, "[quote=B][quote=C]xyz[/quote][/quote]".data)] ∧
    (firstIdx "[quote=B]".data "[quote=B][quote=C]xyz[/quote][/quote]".data).isSome = true ∧
    (firstIdx "[quote=C]".data "[quote=B][quote=C]xyz[/quote][/quote]".data).isSome = true ∧
    (firstIdx "[/quote]".data "[quote=B][quote=C]xyz[/quote][/quote]".data).isSome = true :=
  ⟨fun d h => extract_render d h, by decide, by decide, by decide, by decide⟩

theorem c2_witness :
    wfDoc (BDoc.blk TagKind.quote "A".data (BDoc.txt "hi".data BDoc.nil) BDoc.nil) = true ∧
    extractOutermostQuotes (renderDoc
        (BDoc.blk TagKind.quote "A".data (BDoc.txt "hi".data BDoc.nil) BDoc.nil)) =
      outerBlocks (BDoc.blk TagKind.quote "A".data (BDoc.txt "hi".data BDoc.nil) BDoc.nil) :=
  ⟨by decide, c2_outermost_blocks.1 _ (by decide)⟩

/-- C3: depth counting is kind-separated.  A lone spoiler opener inside a
quote block neither consumes nor corrupts the quote closing tag: for all
titles and bracket-free texts the quote block is returned whole with the
spoiler opener verbatim in its content, and the rest of the document is
still extracted.  The two concrete examples of the claim are included:
mixed kinds yield one outer block titled A, with the balanced spoiler or
the lone spoiler opener kept verbatim inside the content. -/
theorem c3_kind_separated :
    (∀ (T Xt u₁ u₂ : Str) (d : BDoc), wfTitle T = true → wfTitle Xt = true →
      (∀ c ∈ u₁, c ≠ '[') → (∀ c ∈ u₂, c ≠ '[') → wfDoc d = true →
      extractOutermostQuotes
        (openTagOf TagKind.quote T ++ (u₁ ++ (openTagOf TagKind.spoiler Xt ++
          (u₂ ++ (closePat TagKind.quote ++ renderDoc d))))) =
        (trimL T, u₁ ++ (openTagOf TagKind.spoiler Xt ++ u₂)) :: outerBlocks d) ∧
    extractOutermostQuotes "[quote=A][spoiler=B]hi[/spoiler][/quote]".data =
      [("A".data, "[spoiler=B]hi[/spoiler]".data)] ∧
    extractOutermostQuotes "[quote=A]x[spoiler=X]y[/quote]".data =
      [("A".data, "x[spoiler=X]y".data)] :=
  ⟨fun T Xt u₁ u₂ d hT hX h1 h2 hw => extract_lone_spoiler T Xt u₁ u₂ d hT hX h1 h2 hw,
   by decide, by decide⟩

theorem c3_witness :
    wfTitle "A".data = true ∧
    extractOutermostQuotes
      (openTagOf TagKind.quote "A".data ++ ("x".data ++
        (openTagOf TagKind.spoiler "X".data ++
          ("y".data ++ (closePat TagKind.quote ++ renderDoc BDoc.nil))))) =
      (trimL "A".data, "x".data ++ (openTagOf TagKind.spoiler "X".data ++ "y".data)) ::
        outerBlocks BDoc.nil :=
  ⟨by decide, c3_kind_separated.1 "A".data "X".data "x".data "y".data BDoc.nil
    (by decide) (by decide) (by decide) (by decide) rfl⟩

/-- C4: an opening tag with no matching closer is skipped and scanning
resumes, so blocks balanced later in the string are still extracted; and on
an input without any closing tag occurrence (hence without any balanced
block) the extractor returns the empty sequence, never an error, the
function being total. -/
theorem c4_unbalanced_recovery :
    (∀ (k : TagKind) (T u : Str) (d : BDoc), wfTitle T = true →
      (∀ c ∈ u, c ≠ '[') → wfDoc d = true →
      extractOutermostQuotes (openTagOf k T ++ (u ++ renderDoc d)) = outerBlocks d) ∧
    (∀ s : Str, firstIdx (closePat TagKind.quote) (lowerL s) = none →
      firstIdx (closePat TagKind.spoiler) (lowerL s) = none →
      extractOutermostQuotes s = []) :=
  ⟨fun k T u d hT hu hw => extract_unmatched k T u d hT hu hw,
   fun s hq hs => extract_no_closer s hq hs⟩

theorem c4_witness :
    (wfTitle "Z".data = true ∧
      extractOutermostQuotes (openTagOf TagKind.quote "Z".data ++ ("abc".data ++
        renderDoc (BDoc.blk TagKind.quote "A".data (BDoc.txt "hi".data BDoc.nil) BDoc.nil))) =
        outerBlocks
          (BDoc.blk TagKind.quote "A".data (BDoc.txt "hi".data BDoc.nil) BDoc.nil)) ∧
    (firstIdx (closePat TagKind.quote) (lowerL "[quote=U]x".data) = none ∧
      extractOutermostQuotes "[quote=U]x".data = []) :=
  ⟨⟨by decide, c4_unbalanced_recovery.1 TagKind.quote "Z".data "abc".data
      (BDoc.blk TagKind.quote "A".data (BDoc.txt "hi".data BDoc.nil) BDoc.nil)
      (by decide) (by decide) (by decide)⟩,
   ⟨by decide, c4_unbalanced_recovery.2 "[quote=U]x".data (by decide) (by decide)⟩⟩

/-- C7: HDR classification of the first video stream first matches a truthy
explicit hdr format label against the keyword set (dolby vision to DV,
hdr10+ to HDR10+, hdr10 to HDR10, hlg to HLG, anything else to HDR), and
only without a label falls back to the transfer characteristics (pq or
smpte st 2084 to HDR10, hlg to HLG); in particular an absent label with
transfer characteristics SMPTE ST 2084 yields HDR10. -/
theorem c7_hdr_classification :
    (∀ (v : VideoRec) (rest : List VideoRec) (h : Str),
      v.hdr_format = some h → h ≠ [] →
      getHDRInfo (some (v :: rest)) = specLabelClass h) ∧
    (∀ (v : VideoRec) (rest : List VideoRec),
      v.hdr_format = none →
      getHDRInfo (some (v :: rest)) = specTransferClass v.transfer_characteristics) ∧
    (∀ (v : VideoRec) (rest : List VideoRec),
      v.hdr_format = none → v.transfer_characteristics = some "SMPTE ST 2084".data →
      getHDRInfo (some (v :: rest)) = "HDR10".data) := by
  refine ⟨?_, ?_, ?_⟩
  · intro v rest h hf hne
    simp only [getHDRInfo, hf, specLabelClass, ne_eq, hne, not_false_iff, if_true]
  · intro v rest hf
    simp only [getHDRInfo, hf]
    rfl
  · intro v rest hf htc
    simp only [getHDRInfo, hf, htc]
    decide

theorem c7_witness :
    getHDRInfo (some [⟨none, none, none, none, none, none,
        some "Dolby Vision / SMPTE ST 2086".data, none, none, none⟩]) =
      specLabelClass "Dolby Vision / SMPTE ST 2086".data ∧
    getHDRInfo (some [⟨none, none, none, none, none, none,
        none, some "SMPTE ST 2084".data, none, none⟩]) = "HDR10".data :=
  ⟨c7_hdr_classification.1 _ [] _ rfl (by decide),
   c7_hdr_classification.2.2 _ [] rfl rfl⟩

/-- C10: on the empty input the whole pipeline degrades to empty results:
the parse is the empty mapping, the structured record is all-absent, and
the generated summary is the empty string. -/
theorem c10_empty_pipeline :
    parseMediaInfo [] = [] ∧
    toStructured (parseMediaInfo []) =
      { general := none, video := none, audio := none, text := none } ∧
    generateSummary (toStructured (parseMediaInfo [])) = [] :=
  ⟨rfl, by decide, by decide⟩

theorem dedupFirstAux_cons (seen : List Str) (x : Str) (xs : List Str) :
    dedupFirstAux seen (x :: xs) =
      if x ∈ seen then dedupFirstAux seen xs
      else x :: dedupFirstAux (seen ++ [x]) xs := rfl

/-- Fold invariant of getUniqueLanguageFlags: the emitted entries are the
first-occurrence deduplication (relative to the seen set) of the non-empty
canonical forms, each paired with its flag. -/
theorem gulf_aux (langs : List Str) : ∀ (seen : List Str) (acc : List LanguageFlag),
    (langs.foldl (fun (st : List Str × List LanguageFlag) lang =>
      let normalized := normalizeLanguage lang
      if normalized ≠ [] ∧ normalized ∉ st.1 then
        (st.1 ++ [normalized], st.2 ++ [⟨normalized, getLanguageFlag normalized⟩])
      else st) (seen, acc)).2 =
    acc ++ (dedupFirstAux seen ((langs.map normalizeLanguage).filter
        (fun n => n ≠ []))).map (fun c => ⟨c, getLanguageFlag c⟩) := by
  induction langs with
  | nil => intro seen acc; simp [dedupFirstAux]
  | cons lang rest ih =>
    intro seen acc
    simp only [List.foldl_cons, List.map_cons, List.filter_cons]
    by_cases hn : normalizeLanguage lang = []
    · have hcond : ¬(normalizeLanguage lang ≠ [] ∧
          normalizeLanguage lang ∉ (seen, acc).1) := fun hc => hc.1 hn
      rw [if_neg hcond, if_neg (by simp [hn])]
      exact ih seen acc
    · have hfil : decide (normalizeLanguage lang ≠ []) = true := by simp [hn]
      rw [if_pos hfil]
      by_cases hm : normalizeLanguage lang ∈ seen
      · have hcond : ¬(normalizeLanguage lang ≠ [] ∧
            normalizeLanguage lang ∉ (seen, acc).1) := fun hc => hc.2 hm
        rw [if_neg hcond, dedupFirstAux_cons, if_pos hm]
        exact ih seen acc
      · have hcond : normalizeLanguage lang ≠ [] ∧
            normalizeLanguage lang ∉ (seen, acc).1 := ⟨hn, hm⟩
        rw [if_pos hcond, dedupFirstAux_cons, if_neg hm]
        simp only [List.map_cons]
        have h2 := ih (seen ++ [normalizeLanguage lang])
          (acc ++ [⟨normalizeLanguage lang, getLanguageFlag (normalizeLanguage lang)⟩])
        simp only [List.append_assoc, List.singleton_append] at h2
        exact h2

/-- C9: getUniqueLanguageFlags deduplicates by canonical language, keeping
the first flag computed for each canonical value in first-occurrence order;
on English, English (SDH), Japanese it returns exactly the two entries
english and japanese (the SDH qualifier is stripped into English). -/
theorem c9_language_dedup :
    (∀ langs : List Str,
      getUniqueLanguageFlags langs =
        (dedupFirst ((langs.map normalizeLanguage).filter (fun n => n ≠ []))).map
          (fun c => ⟨c, getLanguageFlag c⟩)) ∧
    normalizeLanguage "English (SDH)".data = normalizeLanguage "English".data ∧
    getUniqueLanguageFlags ["English".data, "English (SDH)".data, "Japanese".data] =
      [⟨"english".data, countryCodeToFlag "US".data⟩,
       ⟨"japanese".data, countryCodeToFlag "JP".data⟩] := by
  refine ⟨fun langs => ?_, by decide, by decide⟩
  have h := gulf_aux langs [] []
  simpa [getUniqueLanguageFlags, dedupFirst] using h

/- Normalization identities: on strings free of the trigger characters the
escape, CRLF and NBSP replacements are the identity, and trimming a string
with non-whitespace ends is the identity. -/

theorem firstIdx_none_of_head_notMem (c0 : Char) (pat s : Str)
    (hp : pat.head? = some c0) (h : c0 ∉ s) : firstIdx pat s = none := by
  cases hf : firstIdx pat s with
  | none => rfl
  | some i =>
    obtain ⟨hpre, -⟩ := firstIdx_spec_some pat s i hf
    obtain ⟨t, ht⟩ := hpre
    cases pat with
    | nil => simp at hp
    | cons p ps =>
      obtain rfl : p = c0 := by simpa using hp
      exact absurd (List.drop_subset i s (ht ▸ List.mem_append_left t (by simp))) h

theorem replaceAllF_id (m : Str → Option (Nat × Str)) :
    ∀ (f : Nat) (s : Str), (∀ i, m (s.drop i) = none) → replaceAllF m f s = s := by
  intro f
  induction f with
  | zero => intro s _; rfl
  | succ f ih =>
    intro s h
    cases s with
    | nil => rfl
    | cons c cs =>
      have h0 := h 0
      rw [List.drop_zero] at h0
      rw [replaceAllF, h0]
      have := ih cs (fun i => by have := h (i + 1); rwa [List.drop_succ_cons] at this)
      rw [this]

theorem replaceAll_id (m : Str → Option (Nat × Str)) (s : Str)
    (h : ∀ i, m (s.drop i) = none) : replaceAll m s = s :=
  replaceAllF_id m s.length s h

theorem mEsc_none (s : Str) (h : '\\' ∉ s) : ∀ i, mEsc (s.drop i) = none := by
  intro i
  rw [mEsc]
  split
  · next hpre =>
    rw [List.isPrefixOf_iff_prefix] at hpre
    obtain ⟨t, ht⟩ := hpre
    exact absurd (List.drop_subset i s
      (ht ▸ List.mem_append_left t (by simp))) h
  · rfl

theorem mCRLF_none (s : Str) (h : '\r' ∉ s) : ∀ i, mCRLF (s.drop i) = none := by
  intro i
  cases hd : s.drop i with
  | nil => rfl
  | cons c rest =>
    have hc : c ≠ '\r' := by
      intro hcc
      exact h (List.drop_subset i s (hd ▸ (hcc ▸ List.mem_cons_self c rest)))
    rw [mCRLF.eq_def]
    split
    · next heq => exact absurd (List.cons.injEq .. ▸ heq) (by simp [hc])
    · next heq => exact absurd (List.cons.injEq .. ▸ heq) (by simp [hc])
    · rfl

theorem mNBSP_none (s : Str) (h : 'Â' ∉ s) : ∀ i, mNBSP (s.drop i) = none := by
  intro i
  rw [mNBSP]
  split
  · next hpre =>
    rw [List.isPrefixOf_iff_prefix] at hpre
    obtain ⟨t, ht⟩ := hpre
    exact absurd (List.drop_subset i s
      (ht ▸ List.mem_append_left t (by simp))) h
  · rfl

theorem dropWhile_eq_self_of_head (p : Char → Bool) (s : Str)
    (h : ∀ c, s.head? = some c → p c = false) : s.dropWhile p = s := by
  cases s with
  | nil => rfl
  | cons c cs => rw [List.dropWhile_cons, h c rfl]; simp

theorem trimL_eq_self (s : Str)
    (h1 : ∀ c, s.head? = some c → jsWS c = false)
    (h2 : ∀ c, s.getLast? = some c → jsWS c = false) : trimL s = s := by
  rw [trimL, dropWhile_eq_self_of_head jsWS s h1,
    dropWhile_eq_self_of_head jsWS s.reverse
      (fun c hc => h2 c (by rwa [List.head?_reverse] at hc)),
    List.reverse_reverse]

theorem intercalate_single (sep x : Str) : List.intercalate sep [x] = x := by
  simp [List.intercalate, List.intersperse]

theorem intercalate_cons₂ (sep x y : Str) (t : List Str) :
    List.intercalate sep (x :: y :: t) = x ++ sep ++ List.intercalate sep (y :: t) := by
  simp [List.intercalate, List.intersperse]

theorem renderReport_single (b : MIBlock) : renderReport [b] = renderBlock b := by
  rw [renderReport, List.map_cons, List.map_nil, intercalate_single]

theorem renderReport_cons₂ (b b' : MIBlock) (bs : List MIBlock) :
    renderReport (b :: b' :: bs) =
      renderBlock b ++ ('\n' :: '\n' :: renderReport (b' :: bs)) := by
  rw [renderReport, List.map_cons, List.map_cons, intercalate_cons₂,
    renderReport, List.map_cons]
  simp

theorem getLast?_some_of_ne_nil (l : Str) (h : l ≠ []) : ∃ c, l.getLast? = some c := by
  cases hr : l.reverse with
  | nil => simp at hr; exact absurd hr h
  | cons c t => exact ⟨c, by rw [← List.head?_reverse, hr]; rfl⟩

theorem dropWhile_self_head (p : Char → Bool) (l : Str) (h : l.dropWhile p = l) :
    ∀ c, l.head? = some c → p c = false := by
  intro c hc
  cases l with
  | nil => simp at hc
  | cons c0 cs =>
    obtain rfl : c0 = c := by simpa using hc
    by_contra hp
    rw [List.dropWhile_cons, if_pos (by simpa using hp)] at h
    have := congrArg List.length h
    have hle := List.IsSuffix.length_le (List.dropWhile_suffix p : cs.dropWhile p <:+ cs)
    simp at this
    omega

/-- A trimmed string equals its two one-sided whitespace drops. -/
theorem trim_parts (s : Str) (h : trimL s = s) :
    s.dropWhile jsWS = s ∧ s.reverse.dropWhile jsWS = s.reverse := by
  have hsfx1 : (s.dropWhile jsWS) <:+ s := List.dropWhile_suffix jsWS
  have hsfx2 : ((s.dropWhile jsWS).reverse.dropWhile jsWS) <:+ (s.dropWhile jsWS).reverse :=
    List.dropWhile_suffix jsWS
  have hlen : ((s.dropWhile jsWS).reverse.dropWhile jsWS).length = s.length := by
    have := congrArg List.length h
    rwa [trimL, List.length_reverse] at this
  have hlen2 : (s.dropWhile jsWS).length = s.length := by
    have h1 := List.IsSuffix.length_le hsfx1
    have h2 := List.IsSuffix.length_le hsfx2
    rw [List.length_reverse] at h2
    omega
  have heq1 : s.dropWhile jsWS = s := List.IsSuffix.eq_of_length hsfx1 hlen2
  refine ⟨heq1, ?_⟩
  rw [heq1] at hsfx2 hlen
  exact List.IsSuffix.eq_of_length hsfx2 (by rw [hlen, List.length_reverse])

theorem trim_head_not_ws (s : Str) (h : trimL s = s) :
    ∀ c, s.head? = some c → jsWS c = false :=
  dropWhile_self_head jsWS s (trim_parts s h).1

theorem trim_last_not_ws (s : Str) (h : trimL s = s) :
    ∀ c, s.getLast? = some c → jsWS c = false := fun c hc =>
  dropWhile_self_head jsWS s.reverse (trim_parts s h).2 c
    (by rwa [List.head?_reverse])

theorem wfHeader_parts (h : Str) (hw : wfHeader h = true) :
    h ≠ [] ∧ trimL h = h ∧ ∀ c ∈ h, plainChar c = true := by
  rw [wfHeader] at hw
  simp only [Bool.and_eq_true, decide_eq_true_eq, List.all_eq_true] at hw
  exact ⟨hw.1.1, hw.1.2, hw.2⟩

theorem wfKey_parts (k : Str) (hw : wfKey k = true) :
    k ≠ [] ∧ trimL k = k ∧ ∀ c ∈ k, plainChar c = true ∧ c ≠ ':' := by
  rw [wfKey] at hw
  simp only [Bool.and_eq_true, decide_eq_true_eq, List.all_eq_true] at hw
  exact ⟨hw.1.1, hw.1.2, fun c hc => by
    have := hw.2 c hc
    simp only [Bool.and_eq_true, decide_eq_true_eq] at this
    exact this⟩

theorem wfValue_parts (v : Str) (hw : wfValue v = true) :
    v ≠ [] ∧ trimL v = v ∧ ∀ c ∈ v, plainChar c = true := by
  rw [wfValue] at hw
  simp only [Bool.and_eq_true, decide_eq_true_eq, List.all_eq_true] at hw
  exact ⟨hw.1.1, hw.1.2, hw.2⟩

theorem wfBlock_parts (b : MIBlock) (hw : wfBlock b = true) :
    wfHeader b.header = true ∧ ∀ e ∈ b.entries, wfKey e.1 = true ∧ wfValue e.2 = true := by
  rw [wfBlock] at hw
  simp only [Bool.and_eq_true, List.all_eq_true] at hw
  exact ⟨hw.1, fun e he => by
    have := hw.2 e he
    simp only [Bool.and_eq_true] at this
    exact this⟩

theorem wfReport_parts (bs : List MIBlock) (hw : wfReport bs = true) :
    ∀ b ∈ bs, wfBlock b = true := by
  rw [wfReport] at hw
  simp only [List.all_eq_true] at hw
  exact hw

theorem mem_renderEntry (e : Str × Str) (c : Char) (hc : c ∈ renderEntry e) :
    c = '\n' ∨ c ∈ e.1 ∨ c = ' ' ∨ c = ':' ∨ c ∈ e.2 := by
  rw [renderEntry] at hc
  simp only [List.mem_cons, List.mem_append] at hc
  rcases hc with h | h | h | h | h | h
  · exact Or.inl h
  · exact Or.inr (Or.inl h)
  · exact Or.inr (Or.inr (Or.inl h))
  · exact Or.inr (Or.inr (Or.inr (Or.inl h)))
  · exact Or.inr (Or.inr (Or.inl h))
  · exact Or.inr (Or.inr (Or.inr (Or.inr h)))

theorem plain_block (b : MIBlock) (hw : wfBlock b = true) :
    ∀ c ∈ renderBlock b, c = '\n' ∨ plainChar c = true := by
  obtain ⟨hh, he⟩ := wfBlock_parts b hw
  intro c hc
  rw [renderBlock] at hc
  rcases List.mem_append.1 hc with h | h
  · exact Or.inr ((wfHeader_parts _ hh).2.2 c h)
  · obtain ⟨e, hemem, hce⟩ := List.mem_flatMap.1 h
    obtain ⟨hk, hv⟩ := he e hemem
    rcases mem_renderEntry e c hce with h | h | h | h | h
    · exact Or.inl h
    · exact Or.inr ((wfKey_parts _ hk).2.2 c h).1
    · exact Or.inr (by subst h; decide)
    · exact Or.inr (by subst h; decide)
    · exact Or.inr ((wfValue_parts _ hv).2.2 c h)

theorem plain_report (bs : List MIBlock) (hw : wfReport bs = true) :
    ∀ c ∈ renderReport bs, c = '\n' ∨ plainChar c = true := by
  induction bs with
  | nil => intro c hc; simp [renderReport, List.intercalate] at hc
  | cons b bs ih =>
    have hb := wfReport_parts _ hw b (List.mem_cons_self b bs)
    have hrest : wfReport bs = true := by
      rw [wfReport] at hw ⊢
      simp only [List.all_cons, Bool.and_eq_true] at hw
      exact hw.2
    cases bs with
    | nil =>
      rw [renderReport_single]
      exact plain_block b hb
    | cons b' bs' =>
      intro c hc
      rw [renderReport_cons₂] at hc
      rcases List.mem_append.1 hc with h | h
      · exact plain_block b hb c h
      · rcases List.mem_cons.1 h with h | h
        · exact Or.inl h
        · rcases List.mem_cons.1 h with h | h
          · exact Or.inl h
          · exact ih hrest c h

theorem append_ne_nil_left (l t : Str) (h : l ≠ []) : l ++ t ≠ [] := by
  cases l with
  | nil => exact absurd rfl h
  | cons c cs => simp

theorem head?_append_of_ne_nil (l t : Str) (h : l ≠ []) : (l ++ t).head? = l.head? := by
  cases l with
  | nil => exact absurd rfl h
  | cons c cs => rfl

theorem renderBlock_head (b : MIBlock) (hw : wfBlock b = true) :
    (renderBlock b).head? = b.header.head? :=
  head?_append_of_ne_nil _ _ (wfHeader_parts _ (wfBlock_parts b hw).1).1

theorem renderReport_head (b : MIBlock) (bs : List MIBlock) (hw : wfBlock b = true) :
    (renderReport (b :: bs)).head? = b.header.head? := by
  cases bs with
  | nil => rw [renderReport_single]; exact renderBlock_head b hw
  | cons b' bs' =>
    rw [renderReport_cons₂,
      head?_append_of_ne_nil _ _ (by
        rw [renderBlock]
        exact append_ne_nil_left _ _ (wfHeader_parts _ (wfBlock_parts b hw).1).1)]
    exact renderBlock_head b hw

theorem renderEntry_ne_nil (e : Str × Str) : renderEntry e ≠ [] := by
  rw [renderEntry]; simp

theorem flatMap_renderEntry_ne_nil (e : Str × Str) (es : List (Str × Str)) :
    (e :: es).flatMap renderEntry ≠ [] := by
  rw [List.flatMap_cons]
  exact append_ne_nil_left _ _ (renderEntry_ne_nil e)

theorem renderEntry_last (e : Str × Str) (hv : wfValue e.2 = true) :
    ∃ c, (renderEntry e).getLast? = some c ∧ jsWS c = false := by
  obtain ⟨hne, htr, -⟩ := wfValue_parts _ hv
  obtain ⟨c, hc⟩ := getLast?_some_of_ne_nil e.2 hne
  refine ⟨c, ?_, trim_last_not_ws _ htr c hc⟩
  have hshape : renderEntry e = ('\n' :: (e.1 ++ [' ', ':', ' '])) ++ e.2 := by
    rw [renderEntry]; simp
  rw [hshape, List.getLast?_append_of_ne_nil _ hne, hc]

theorem flatMap_renderEntry_last (es : List (Str × Str))
    (hne : es ≠ []) (hwf : ∀ e ∈ es, wfValue e.2 = true) :
    ∃ c, (es.flatMap renderEntry).getLast? = some c ∧ jsWS c = false := by
  induction es with
  | nil => exact absurd rfl hne
  | cons e es ih =>
    cases es with
    | nil =>
      rw [List.flatMap_cons, List.flatMap_nil, List.append_nil]
      exact renderEntry_last e (hwf e (List.mem_cons_self e []))
    | cons e' es' =>
      rw [List.flatMap_cons,
        List.getLast?_append_of_ne_nil _ (flatMap_renderEntry_ne_nil e' es')]
      exact ih (by simp) (fun x hx => hwf x (List.mem_cons_of_mem e hx))

theorem renderBlock_last (b : MIBlock) (hw : wfBlock b = true) :
    ∃ c, (renderBlock b).getLast? = some c ∧ jsWS c = false := by
  obtain ⟨hh, he⟩ := wfBlock_parts b hw
  obtain ⟨hhne, hhtr, -⟩ := wfHeader_parts _ hh
  cases hes : b.entries with
  | nil =>
    obtain ⟨c, hc⟩ := getLast?_some_of_ne_nil b.header hhne
    refine ⟨c, ?_, trim_last_not_ws _ hhtr c hc⟩
    rw [renderBlock, hes, List.flatMap_nil, List.append_nil, hc]
  | cons e es =>
    rw [renderBlock, hes,
      List.getLast?_append_of_ne_nil _ (flatMap_renderEntry_ne_nil e es)]
    exact flatMap_renderEntry_last (e :: es) (by simp)
      (fun x hx => (he x (hes ▸ hx)).2)

theorem renderReport_ne_nil (b : MIBlock) (bs : List MIBlock) (hw : wfBlock b = true) :
    renderReport (b :: bs) ≠ [] := by
  intro hcon
  have := renderReport_head b bs hw
  rw [hcon] at this
  obtain ⟨c, hc⟩ : ∃ c, b.header.head? = some c := by
    cases hh : b.header with
    | nil => exact absurd hh (wfHeader_parts _ (wfBlock_parts b hw).1).1
    | cons c cs => exact ⟨c, rfl⟩
  rw [hc] at this
  simp at this

theorem renderReport_last (b : MIBlock) (bs : List MIBlock) (hw : wfReport (b :: bs) = true) :
    ∃ c, (renderReport (b :: bs)).getLast? = some c ∧ jsWS c = false := by
  induction bs generalizing b with
  | nil =>
    rw [renderReport_single]
    exact renderBlock_last b (wfReport_parts _ hw b (by simp))
  | cons b' bs' ih =>
    rw [renderReport_cons₂]
    have hw' : wfReport (b' :: bs') = true := by
      rw [wfReport] at hw ⊢
      simp only [List.all_cons, Bool.and_eq_true] at hw
      simp only [List.all_cons, Bool.and_eq_true]
      exact hw.2
    have hne := renderReport_ne_nil b' bs' (wfReport_parts _ hw' b' (by simp))
    rw [List.getLast?_append_of_ne_nil (renderBlock b)
        (List.cons_ne_nil '\n' ('\n' :: renderReport (b' :: bs'))),
      show ('\n' :: '\n' :: renderReport (b' :: bs')) =
        ['\n', '\n'] ++ renderReport (b' :: bs') from rfl,
      List.getLast?_append_of_ne_nil ['\n', '\n'] hne]
    exact ih b' hw'

theorem notMem_report_of_not_plain (bs : List MIBlock) (hw : wfReport bs = true)
    (c : Char) (hnl : c ≠ '\n') (hpc : plainChar c = false) : c ∉ renderReport bs := by
  intro hc
  rcases plain_report bs hw c hc with h | h
  · exact hnl h
  · rw [hpc] at h; exact Bool.false_ne_true h

/-- On a well-formed rendered report the whole normalization prefix of
parseMediaInfo (escape decoding, CRLF and NBSP rewriting, trimming) is the
identity: the parse is the fold of processBlock over the split blocks. -/
theorem parse_norm (b : MIBlock) (bs : List MIBlock) (hw : wfReport (b :: bs) = true) :
    parseMediaInfo (renderReport (b :: bs)) =
      (splitBlocks (renderReport (b :: bs))).foldl processBlock [] := by
  have hwb : wfBlock b = true := wfReport_parts _ hw b (by simp)
  have hne := renderReport_ne_nil b bs hwb
  have hbsl : '\\' ∉ renderReport (b :: bs) :=
    notMem_report_of_not_plain _ hw '\\' (by decide) (by decide)
  have hcr : '\r' ∉ renderReport (b :: bs) :=
    notMem_report_of_not_plain _ hw '\r' (by decide) (by decide)
  have hnb : 'Â' ∉ renderReport (b :: bs) :=
    notMem_report_of_not_plain _ hw 'Â' (by decide) (by decide)
  have hesc : looksEscaped (renderReport (b :: bs)) = false := by
    rw [looksEscaped,
      firstIdx_none_of_head_notMem '\\' ['\\', 'n'] _ rfl hbsl]
    rfl
  have hid1 : replaceAll mCRLF (renderReport (b :: bs)) = renderReport (b :: bs) :=
    replaceAll_id _ _ (mCRLF_none _ hcr)
  have hid2 : replaceAll mNBSP (renderReport (b :: bs)) = renderReport (b :: bs) :=
    replaceAll_id _ _ (mNBSP_none _ hnb)
  have htrim : trimL (renderReport (b :: bs)) = renderReport (b :: bs) := by
    apply trimL_eq_self
    · intro c hc
      rw [renderReport_head b bs hwb] at hc
      exact trim_head_not_ws _ (wfHeader_parts _ (wfBlock_parts b hwb).1).2.1 c hc
    · intro c hc
      obtain ⟨c', hc', hw'⟩ := renderReport_last b bs hw
      rw [hc'] at hc
      obtain rfl : c' = c := by simpa using hc
      exact hw'
  rw [parseMediaInfo]
  rw [if_neg hne]
  simp only [hesc, Bool.false_eq_true, if_false, hid1, hid2, htrim]

theorem sepAt_ne (c : Char) (r : Str) (h : c ≠ '\n') : sepAt (c :: r) = none := by
  unfold sepAt
  split
  · rename_i rest heq
    injection heq with h1 h2
    exact absurd h1 h
  · rfl

theorem sepAt_nl_nonws (c : Char) (r : Str) (h : jsWS c = false) :
    sepAt ('\n' :: c :: r) = none := by
  rw [sepAt]
  simp [List.takeWhile_cons, h]

theorem sepAt_nl_nil : sepAt ['\n'] = none := by decide

theorem nlOk_cons_ne (c : Char) (r : Str) (h : c ≠ '\n') : nlOk (c :: r) = nlOk r := by
  rw [nlOk.eq_def]
  split
  · rename_i heq
    simp at heq
  · rename_i rest heq
    injection heq with h1 h2
    exact absurd h1 h
  · rename_i hne heq
    injection heq with h1 h2
    rw [h2]

theorem nlOk_nl (r : Str) (h : nlOk ('\n' :: r) = true) :
    ∃ c r', r = c :: r' ∧ jsWS c = false ∧ nlOk r = true := by
  rw [nlOk.eq_def] at h
  split at h
  · next heq => exact absurd heq (by simp)
  · next rest heq =>
    injection heq with h1 h2
    subst h2
    cases r with
    | nil => simp at h
    | cons c tail =>
      simp only [] at h
      simp only [Bool.and_eq_true, decide_eq_true_eq] at h
      exact ⟨c, tail, rfl, by simpa using h.1, h.2⟩
  · next hne heq =>
    injection heq with h1 h2
    exact absurd h1.symm (by simpa using hne)

theorem nlOk_nl_intro (c : Char) (r : Str) (hc : jsWS c = false)
    (h : nlOk (c :: r) = true) : nlOk ('\n' :: c :: r) = true := by
  rw [nlOk.eq_def]
  simp [hc, h]

theorem nlOk_no_sep (s : Str) :
    nlOk s = true → ∀ (t : Str) (i : Nat), i < s.length →
      sepAt ((s ++ t).drop i) = none := by
  induction s with
  | nil => intro _ t i hi; simp at hi
  | cons c cs ih =>
    intro h t i hi
    cases i with
    | zero =>
      rw [List.drop_zero, List.cons_append]
      by_cases hc : c = '\n'
      · subst hc
        obtain ⟨c2, r', hr, hw2, -⟩ := nlOk_nl cs h
        subst hr
        rw [List.cons_append]
        exact sepAt_nl_nonws c2 (r' ++ t) hw2
      · exact sepAt_ne c (cs ++ t) hc
    | succ i =>
      rw [List.cons_append, List.drop_succ_cons]
      have hcs : nlOk cs = true := by
        by_cases hc : c = '\n'
        · subst hc
          obtain ⟨c2, r', hr, -, h2⟩ := nlOk_nl cs h
          exact h2
        · rwa [nlOk_cons_ne c cs hc] at h
      exact ih hcs t i (by simpa using hi)

theorem nlOk_append_noNl (s t : Str) (hs : ∀ c ∈ s, c ≠ '\n') (ht : nlOk t = true) :
    nlOk (s ++ t) = true := by
  induction s with
  | nil => simpa using ht
  | cons c cs ih =>
    rw [List.cons_append, nlOk_cons_ne c _ (hs c (by simp))]
    exact ih (fun x hx => hs x (List.mem_cons_of_mem c hx))

theorem renderEntry_line_noNl (e : Str × Str) (hk : wfKey e.1 = true)
    (hv : wfValue e.2 = true) :
    ∀ c ∈ e.1 ++ (' ' :: ':' :: ' ' :: e.2), c ≠ '\n' := by
  intro c hc
  rcases List.mem_append.1 hc with h | h
  · have := ((wfKey_parts _ hk).2.2 c h).1
    rw [plainChar] at this
    simp only [Bool.and_eq_true, decide_eq_true_eq] at this
    exact this.1.1.1
  · rcases List.mem_cons.1 h with h | h
    · subst h; decide
    · rcases List.mem_cons.1 h with h | h
      · subst h; decide
      · rcases List.mem_cons.1 h with h | h
        · subst h; decide
        · have := (wfValue_parts _ hv).2.2 c h
          rw [plainChar] at this
          simp only [Bool.and_eq_true, decide_eq_true_eq] at this
          exact this.1.1.1

theorem nlOk_flatMap (es : List (Str × Str))
    (hwf : ∀ e ∈ es, wfKey e.1 = true ∧ wfValue e.2 = true) :
    nlOk (es.flatMap renderEntry) = true := by
  induction es with
  | nil => rfl
  | cons e es ih =>
    obtain ⟨hk, hv⟩ := hwf e (by simp)
    obtain ⟨hkne, hktr, -⟩ := wfKey_parts _ hk
    rw [List.flatMap_cons, renderEntry]
    obtain ⟨c0, k', hkc⟩ : ∃ c0 k', e.1 = c0 :: k' := by
      cases hk1 : e.1 with
      | nil => exact absurd hk1 hkne
      | cons c0 k' => exact ⟨c0, k', rfl⟩
    have hc0 : jsWS c0 = false :=
      trim_head_not_ws _ hktr c0 (by rw [hkc]; rfl)
    have hrest : nlOk ((e.1 ++ (' ' :: ':' :: ' ' :: e.2)) ++ es.flatMap renderEntry) = true :=
      nlOk_append_noNl _ _ (renderEntry_line_noNl e hk hv)
        (ih (fun x hx => hwf x (List.mem_cons_of_mem e hx)))
    rw [hkc] at hrest ⊢
    rw [List.cons_append, List.cons_append] at hrest ⊢
    exact nlOk_nl_intro c0 _ hc0 hrest

theorem nlOk_renderBlock (b : MIBlock) (hw : wfBlock b = true) :
    nlOk (renderBlock b) = true := by
  obtain ⟨hh, he⟩ := wfBlock_parts b hw
  rw [renderBlock]
  apply nlOk_append_noNl
  · intro c hc
    have := (wfHeader_parts _ hh).2.2 c hc
    rw [plainChar] at this
    simp only [Bool.and_eq_true, decide_eq_true_eq] at this
    exact this.1.1.1
  · exact nlOk_flatMap b.entries he

theorem sepAt_nil : sepAt [] = none := rfl

theorem firstSep_none (s : Str) (h : ∀ i, sepAt (s.drop i) = none) : firstSep s = none := by
  induction s with
  | nil => rfl
  | cons c cs ih =>
    rw [firstSep]
    have h0 := h 0
    rw [List.drop_zero] at h0
    rw [h0, ih (fun i => by have := h (i + 1); rwa [List.drop_succ_cons] at this)]
    rfl

theorem firstSep_append (s t : Str)
    (h : ∀ i, i < s.length → sepAt ((s ++ t).drop i) = none) :
    firstSep (s ++ t) = (firstSep t).map (fun p => (p.1 + s.length, p.2)) := by
  induction s with
  | nil =>
    rw [List.nil_append, List.length_nil]
    cases firstSep t <;> simp
  | cons c cs ih =>
    rw [List.cons_append, firstSep]
    have h0 := h 0 (by simp)
    rw [List.drop_zero, List.cons_append] at h0
    rw [h0, ih (fun i hi => by
      have := h (i + 1) (by simpa using hi)
      rwa [List.cons_append, List.drop_succ_cons] at this)]
    cases firstSep t with
    | none => rfl
    | some p =>
      simp only [Option.map_some', List.length_cons, Option.some.injEq, Prod.mk.injEq]
      exact ⟨by omega, trivial⟩

theorem sep_two_nl (rest : Str) (c : Char) (hc : rest.head? = some c)
    (hw : jsWS c = false) : sepAt ('\n' :: '\n' :: rest) = some 2 := by
  cases rest with
  | nil => simp at hc
  | cons c0 r' =>
    obtain rfl : c0 = c := by simpa using hc
    rw [sepAt]
    have h1 : jsWS '\n' = true := by decide
    simp only [List.takeWhile_cons, h1, hw, if_true, Bool.false_eq_true, if_false]
    decide

theorem firstSep_two_nl (rest : Str) (c : Char) (hc : rest.head? = some c)
    (hw : jsWS c = false) : firstSep ('\n' :: '\n' :: rest) = some (0, 2) := by
  rw [firstSep, sep_two_nl rest c hc hw]

theorem sepAt_some_ge (s : Str) (l : Nat) (h : sepAt s = some l) : 2 ≤ l := by
  rw [sepAt.eq_def] at h
  simp only [] at h
  split at h
  · next rest =>
    split at h
    · exact absurd h (by simp)
    · next hr =>
      injection h with h1
      omega
  · exact absurd h (by simp)

theorem firstSep_bound (s : Str) :
    ∀ i l, firstSep s = some (i, l) → i < s.length ∧ 2 ≤ l := by
  induction s with
  | nil => intro i l h; exact absurd h (by rw [firstSep]; simp)
  | cons c cs ih =>
    intro i l h
    rw [firstSep] at h
    cases hs : sepAt (c :: cs) with
    | some l0 =>
      rw [hs] at h
      injection h with h1
      rw [Prod.mk.injEq] at h1
      obtain ⟨rfl, rfl⟩ := h1
      exact ⟨by simp, sepAt_some_ge _ _ hs⟩
    | none =>
      rw [hs] at h
      cases hr : firstSep cs with
      | none => rw [hr] at h; exact absurd h (by simp)
      | some p =>
        rw [hr] at h
        simp only [Option.map_some', Option.some.injEq, Prod.mk.injEq] at h
        obtain ⟨q1, q2⟩ := ih p.1 p.2 (by rw [hr])
        obtain ⟨rfl, rfl⟩ := h
        exact ⟨by simpa using Nat.succ_lt_succ q1, q2⟩

theorem firstSep_ne_nil (i l : Nat) (h : firstSep [] = some (i, l)) : False := by
  rw [firstSep] at h; simp at h

theorem splitBlocksF_mono :
    ∀ f₁ f₂ s, s.length < f₁ → s.length < f₂ → splitBlocksF f₁ s = splitBlocksF f₂ s := by
  intro f₁
  induction f₁ with
  | zero => intro f₂ s h₁ _; omega
  | succ f₁' ih =>
    intro f₂ s h₁ h₂
    cases f₂ with
    | zero => omega
    | succ f₂' =>
      rw [splitBlocksF, splitBlocksF]
      cases hf : firstSep s with
      | none => rfl
      | some p =>
        obtain ⟨i, l⟩ := p
        obtain ⟨hi, hl⟩ := firstSep_bound s i l hf
        have hlen : (s.drop (i + l)).length < s.length := by
          rw [List.length_drop]
          omega
        simp only []
        rw [ih f₂' (s.drop (i + l)) (by omega) (by omega)]

theorem splitBlocks_step (s : Str) :
    splitBlocks s =
      match firstSep s with
      | none => [s]
      | some (i, l) => s.take i :: splitBlocks (s.drop (i + l)) := by
  rw [splitBlocks, splitBlocksF]
  cases hf : firstSep s with
  | none => rfl
  | some p =>
    obtain ⟨i, l⟩ := p
    obtain ⟨hi, hl⟩ := firstSep_bound s i l hf
    have hlen : (s.drop (i + l)).length < s.length := by
      rw [List.length_drop]; omega
    simp only []
    rw [splitBlocksF_mono s.length ((s.drop (i + l)).length + 1) (s.drop (i + l))
      (by omega) (by omega), splitBlocks]

theorem renderBlock_no_sep (b : MIBlock) (hw : wfBlock b = true) :
    ∀ i, sepAt ((renderBlock b).drop i) = none := by
  intro i
  by_cases hi : i < (renderBlock b).length
  · have := nlOk_no_sep (renderBlock b) (nlOk_renderBlock b hw) [] i hi
    rwa [List.append_nil] at this
  · rw [List.drop_eq_nil_of_le (by omega)]
    exact sepAt_nil

theorem splitBlocks_render :
    ∀ (bs : List MIBlock) (b : MIBlock), wfReport (b :: bs) = true →
      splitBlocks (renderReport (b :: bs)) = (b :: bs).map renderBlock := by
  intro bs
  induction bs with
  | nil =>
    intro b hw
    rw [renderReport_single, splitBlocks_step,
      firstSep_none _ (renderBlock_no_sep b (wfReport_parts _ hw b (by simp)))]
    rfl
  | cons b' bs' ih =>
    intro b hw
    have hwb : wfBlock b = true := wfReport_parts _ hw b (by simp)
    have hw' : wfReport (b' :: bs') = true := by
      rw [wfReport] at hw ⊢
      simp only [List.all_cons, Bool.and_eq_true] at hw
      simp only [List.all_cons, Bool.and_eq_true]
      exact hw.2
    have hwb' : wfBlock b' = true := wfReport_parts _ hw' b' (by simp)
    obtain ⟨c0, k', hhc⟩ : ∃ c0 k', b'.header = c0 :: k' := by
      cases hh : b'.header with
      | nil => exact absurd hh (wfHeader_parts _ (wfBlock_parts b' hwb').1).1
      | cons c0 k' => exact ⟨c0, k', rfl⟩
    have hch : (renderReport (b' :: bs')).head? = some c0 := by
      rw [renderReport_head b' bs' hwb', hhc]; rfl
    have hc0w : jsWS c0 = false :=
      trim_head_not_ws _ (wfHeader_parts _ (wfBlock_parts b' hwb').1).2.1 c0
        (by rw [hhc]; rfl)
    rw [renderReport_cons₂, splitBlocks_step,
      firstSep_append _ _ (fun i hi =>
        nlOk_no_sep (renderBlock b) (nlOk_renderBlock b hwb) _ i hi),
      firstSep_two_nl (renderReport (b' :: bs')) c0 hch hc0w]
    simp only [Option.map_some', Nat.zero_add]
    rw [List.take_left]
    rw [show (renderBlock b).length + 2 = (renderBlock b).length + 2 from rfl]
    have hdrop : ((renderBlock b) ++ ('\n' :: '\n' :: renderReport (b' :: bs'))).drop
        ((renderBlock b).length + 2) = renderReport (b' :: bs') := by
      rw [List.drop_append]
      rfl
    rw [hdrop, ih b' hw']
    rfl

theorem splitOnChar_ne_nil (sep : Char) (s : Str) : splitOnChar sep s ≠ [] := by
  cases s with
  | nil => simp [splitOnChar]
  | cons c cs =>
    rw [splitOnChar]
    split
    · simp
    · split <;> simp

theorem splitOnChar_cons_sep (sep : Char) (s : Str) :
    splitOnChar sep (sep :: s) = [] :: splitOnChar sep s := by
  rw [splitOnChar, if_pos rfl]

theorem splitOnChar_append_noSep (sep : Char) (a : Str) (ha : ∀ c ∈ a, c ≠ sep) :
    ∀ (s h : Str) (t : List Str), splitOnChar sep s = h :: t →
      splitOnChar sep (a ++ s) = (a ++ h) :: t := by
  induction a with
  | nil => intro s h t hs; simpa using hs
  | cons c cs ih =>
    intro s h t hs
    rw [List.cons_append, splitOnChar, if_neg (by simpa using ha c (by simp)),
      ih (fun x hx => ha x (List.mem_cons_of_mem c hx)) s h t hs]
    simp

theorem splitOnChar_noSep (sep : Char) (a : Str) (ha : ∀ c ∈ a, c ≠ sep) :
    splitOnChar sep a = [a] := by
  have := splitOnChar_append_noSep sep a ha [] [] [] rfl
  simpa using this

theorem intercalate_splitOnChar (sep : Char) (s : Str) :
    List.intercalate [sep] (splitOnChar sep s) = s := by
  induction s with
  | nil => simp [splitOnChar, List.intercalate, List.intersperse]
  | cons c cs ih =>
    rw [splitOnChar]
    split
    · next hc =>
      subst hc
      cases hs : splitOnChar c cs with
      | nil => exact absurd hs (splitOnChar_ne_nil c cs)
      | cons h t =>
        rw [intercalate_cons₂, ← hs, ih]
        simp
    · next hc =>
      cases hs : splitOnChar sep cs with
      | nil => exact absurd hs (splitOnChar_ne_nil sep cs)
      | cons h t =>
        simp only []
        cases t with
        | nil =>
          rw [intercalate_single]
          have := ih
          rw [hs, intercalate_single] at this
          rw [this]
        | cons h2 t2 =>
          rw [intercalate_cons₂]
          have := ih
          rw [hs, intercalate_cons₂] at this
          simp only [List.cons_append, List.append_assoc] at this ⊢
          rw [this]

theorem split_lines_flatMap :
    ∀ (es : List (Str × Str)) (a : Str), (∀ c ∈ a, c ≠ '\n') →
      (∀ e ∈ es, wfKey e.1 = true ∧ wfValue e.2 = true) →
      splitOnChar '\n' (a ++ es.flatMap renderEntry) =
        a :: es.map (fun e => e.1 ++ (' ' :: ':' :: ' ' :: e.2)) := by
  intro es
  induction es with
  | nil =>
    intro a ha _
    rw [List.flatMap_nil, List.append_nil, List.map_nil]
    exact splitOnChar_noSep '\n' a ha
  | cons e es ih =>
    intro a ha hwf
    rw [List.flatMap_cons, renderEntry]
    have hrest := ih (e.1 ++ (' ' :: ':' :: ' ' :: e.2))
      (renderEntry_line_noNl e (hwf e (by simp)).1 (hwf e (by simp)).2)
      (fun x hx => hwf x (List.mem_cons_of_mem e hx))
    have hshape : (a ++ ('\n' :: (e.1 ++ (' ' :: ':' :: ' ' :: e.2)) ++ es.flatMap renderEntry)) =
        a ++ ('\n' :: ((e.1 ++ (' ' :: ':' :: ' ' :: e.2)) ++ es.flatMap renderEntry)) := by
      simp
    rw [hshape, splitOnChar_append_noSep '\n' a ha _ _ _
      (by rw [splitOnChar_cons_sep, hrest]), List.append_nil, List.map_cons]

theorem trim_append_one_ws (k : Str) (w : Char) (hw : jsWS w = true)
    (hk : trimL k = k) (hkne : k ≠ []) : trimL (k ++ [w]) = k := by
  obtain ⟨c0, k', rfl⟩ : ∃ c0 k', k = c0 :: k' := by
    cases k with
    | nil => exact absurd rfl hkne
    | cons c0 k' => exact ⟨c0, k', rfl⟩
  have hc0 : jsWS c0 = false := trim_head_not_ws _ hk c0 rfl
  rw [trimL, List.cons_append, List.dropWhile_cons, hc0]
  simp only [Bool.false_eq_true, if_false]
  rw [show ((c0 :: (k' ++ [w])).reverse) = w :: (c0 :: k').reverse by simp,
    List.dropWhile_cons, hw]
  simp only [if_true]
  rw [(trim_parts _ hk).2, List.reverse_reverse]

theorem trim_cons_one_ws (v : Str) (w : Char) (hw : jsWS w = true)
    (hv : trimL v = v) (hvne : v ≠ []) : trimL (w :: v) = v := by
  rw [trimL, List.dropWhile_cons, hw]
  simp only [if_true]
  rw [(trim_parts _ hv).1, (trim_parts _ hv).2, List.reverse_reverse]

theorem lineKV_render (k v : Str) (hk : wfKey k = true) (hv : wfValue v = true) :
    lineKV (k ++ (' ' :: ':' :: ' ' :: v)) = some (k, v) := by
  obtain ⟨hkne, hktr, hkpl⟩ := wfKey_parts _ hk
  obtain ⟨hvne, hvtr, -⟩ := wfValue_parts _ hv
  rw [lineKV, if_pos (by simpa using List.mem_append_right k (by simp))]
  have hnos : ∀ c ∈ k ++ [' '], c ≠ ':' := by
    intro c hc
    rcases List.mem_append.1 hc with h | h
    · exact (hkpl c h).2
    · simp at h; subst h; decide
  have hsplit := splitOnChar_append_noSep ':' (k ++ [' ']) hnos (':' :: (' ' :: v)) []
    (splitOnChar ':' (' ' :: v)) (splitOnChar_cons_sep ':' (' ' :: v))
  rw [List.append_nil] at hsplit
  have hshape : (k ++ (' ' :: ':' :: ' ' :: v)) = (k ++ [' ']) ++ (':' :: (' ' :: v)) := by
    simp
  rw [hshape, hsplit]
  simp only []
  rw [trim_append_one_ws k ' ' (by decide) hktr hkne,
    intercalate_splitOnChar ':' (' ' :: v),
    trim_cons_one_ws v ' ' (by decide) hvtr hvne,
    if_neg (by simpa using hkne)]

theorem trim_line (k v : Str) (hk : wfKey k = true) (hv : wfValue v = true) :
    trimL (k ++ (' ' :: ':' :: ' ' :: v)) = k ++ (' ' :: ':' :: ' ' :: v) := by
  obtain ⟨hkne, hktr, -⟩ := wfKey_parts _ hk
  obtain ⟨hvne, hvtr, -⟩ := wfValue_parts _ hv
  apply trimL_eq_self
  · intro c hc
    rw [head?_append_of_ne_nil _ _ hkne] at hc
    exact trim_head_not_ws _ hktr c hc
  · intro c hc
    rw [show (k ++ (' ' :: ':' :: ' ' :: v)) = (k ++ [' ', ':', ' ']) ++ v by simp,
      List.getLast?_append_of_ne_nil _ hvne] at hc
    exact trim_last_not_ws _ hvtr c hc

theorem buildData_map_line :
    ∀ (es : List (Str × Str)) (acc : MIData),
      (∀ e ∈ es, wfKey e.1 = true ∧ wfValue e.2 = true) →
      (es.map (fun e => e.1 ++ (' ' :: ':' :: ' ' :: e.2))).foldl (fun d line =>
        match lineKV line with
        | none => d
        | some (k, v) => pushKV d k v) acc =
      es.foldl (fun d e => pushKV d e.1 e.2) acc := by
  intro es
  induction es with
  | nil => intro acc _; rfl
  | cons e es ih =>
    intro acc hwf
    rw [List.map_cons, List.foldl_cons, List.foldl_cons,
      lineKV_render e.1 e.2 (hwf e (by simp)).1 (hwf e (by simp)).2]
    exact ih (pushKV acc e.1 e.2) (fun x hx => hwf x (List.mem_cons_of_mem e hx))

/-- processBlock on a rendered well-formed block appends exactly the block's
section (its data built key by key from the entries) under its base name. -/
theorem processBlock_render (acc : MediaInfoParsed) (b : MIBlock) (hw : wfBlock b = true) :
    processBlock acc (renderBlock b) =
      appendParsed acc (headerParse b.header).1 (sectionOf b) := by
  obtain ⟨hh, he⟩ := wfBlock_parts b hw
  obtain ⟨hhne, hhtr, hhpl⟩ := wfHeader_parts _ hh
  have hsplit : splitOnChar '\n' (renderBlock b) =
      b.header :: b.entries.map (fun e => e.1 ++ (' ' :: ':' :: ' ' :: e.2)) := by
    rw [renderBlock]
    exact split_lines_flatMap b.entries b.header
      (fun c hc => by
        have := hhpl c hc
        rw [plainChar] at this
        simp only [Bool.and_eq_true, decide_eq_true_eq] at this
        exact this.1.1.1)
      he
  have hmap : (splitOnChar '\n' (renderBlock b)).map trimL =
      b.header :: b.entries.map (fun e => e.1 ++ (' ' :: ':' :: ' ' :: e.2)) := by
    rw [hsplit, List.map_cons, hhtr, List.map_map]
    congr 1
    apply List.map_congr_left
    intro e hemem
    exact trim_line e.1 e.2 (he e hemem).1 (he e hemem).2
  have hfil : (((splitOnChar '\n' (renderBlock b)).map trimL).filter (fun l => l ≠ [])) =
      b.header :: b.entries.map (fun e => e.1 ++ (' ' :: ':' :: ' ' :: e.2)) := by
    rw [hmap, List.filter_cons, if_pos (by simpa using hhne)]
    congr 1
    apply List.filter_eq_self.2
    intro line hline
    obtain ⟨e, hemem, rfl⟩ := List.mem_map.1 hline
    simp [(wfKey_parts _ (he e hemem).1).1]
  have hdata : buildData (b.entries.map (fun e => e.1 ++ (' ' :: ':' :: ' ' :: e.2))) =
      buildDataKV b.entries := by
    rw [buildData, buildDataKV]
    exact buildData_map_line b.entries [] he
  rw [processBlock, hfil]
  simp only []
  rw [hdata]
  rfl

theorem foldl_processBlock_render :
    ∀ (blocks : List MIBlock) (acc : MediaInfoParsed),
      (∀ x ∈ blocks, wfBlock x = true) →
      (blocks.map renderBlock).foldl processBlock acc =
        blocks.foldl (fun a x => appendParsed a (headerParse x.header).1 (sectionOf x)) acc := by
  intro blocks
  induction blocks with
  | nil => intro acc _; rfl
  | cons x xs ih =>
    intro acc hwf
    rw [List.map_cons, List.foldl_cons, List.foldl_cons,
      processBlock_render acc x (hwf x (by simp))]
    exact ih _ (fun y hy => hwf y (List.mem_cons_of_mem x hy))

/-- Main refinement: parseMediaInfo on a rendered well-formed report is the
section mapping of the abstract report. -/
theorem parse_render (bs : List MIBlock) (hw : wfReport bs = true) :
    parseMediaInfo (renderReport bs) = parsedOf bs := by
  cases bs with
  | nil => rfl
  | cons b bs' =>
    rw [parse_norm b bs' hw, splitBlocks_render bs' b hw, parsedOf]
    exact foldl_processBlock_render (b :: bs') [] (wfReport_parts _ hw)

theorem lookupKV_cons (e : Str × MIVal) (d : MIData) (k : Str) :
    lookupKV (e :: d) k = if e.1 = k then some e.2 else lookupKV d k := by
  by_cases he : e.1 = k
  · rw [lookupKV, List.find?_cons_of_pos _ (by simpa using he), if_pos he]
    rfl
  · rw [lookupKV, List.find?_cons_of_neg _ (by simpa using he), if_neg he]
    rfl

theorem lookupKV_append_self (d : MIData) (k : Str) (v : MIVal)
    (h : lookupKV d k = none) : lookupKV (d ++ [(k, v)]) k = some v := by
  induction d with
  | nil => simp [lookupKV]
  | cons e d ih =>
    rw [lookupKV_cons] at h
    rw [List.cons_append, lookupKV_cons]
    split at h
    · exact absurd h (by simp)
    · next he => rw [if_neg he]; exact ih h

theorem lookupKV_append_other (d : MIData) (k k' : Str) (v : MIVal)
    (h : k' ≠ k) : lookupKV (d ++ [(k', v)]) k = lookupKV d k := by
  induction d with
  | nil => simp [lookupKV, List.find?, h]
  | cons e d ih =>
    rw [List.cons_append, lookupKV_cons, lookupKV_cons]
    split
    · rfl
    · exact ih

theorem lookupKV_update_self (d : MIData) (k : Str) (v : MIVal)
    (h : (lookupKV d k).isSome = true) : lookupKV (updateKV d k v) k = some v := by
  induction d with
  | nil => simp [lookupKV] at h
  | cons e d ih =>
    rw [lookupKV_cons] at h
    rw [updateKV, List.map_cons]
    by_cases he : e.1 = k
    · rw [if_pos he, lookupKV_cons, if_pos rfl]
    · rw [if_neg he, lookupKV_cons, if_neg he]
      rw [if_neg he] at h
      exact ih h

theorem lookupKV_update_other (d : MIData) (k k' : Str) (v : MIVal)
    (h : k' ≠ k) : lookupKV (updateKV d k v) k' = lookupKV d k' := by
  induction d with
  | nil => rfl
  | cons e d ih =>
    rw [updateKV, List.map_cons]
    by_cases he : e.1 = k
    · rw [if_pos he, lookupKV_cons, lookupKV_cons, if_neg (by simpa using fun hc => h hc.symm),
        if_neg (by rw [he]; exact fun hc => h hc.symm)]
      exact ih
    · rw [if_neg he, lookupKV_cons, lookupKV_cons]
      split
      · rfl
      · exact ih

theorem pushKV_lookup_self (d : MIData) (k : Str) (v : Str) :
    lookupKV (pushKV d k v) k =
      match lookupKV d k with
      | none => some (MIVal.str v)
      | some (MIVal.str v0) => some (MIVal.arr [v0, v])
      | some (MIVal.arr vs) => some (MIVal.arr (vs ++ [v])) := by
  rw [pushKV]
  cases hd : lookupKV d k with
  | none => simp only []; exact lookupKV_append_self d k _ hd
  | some x =>
    cases x with
    | str v0 =>
      simp only []
      exact lookupKV_update_self d k _ (by rw [hd]; rfl)
    | arr vs =>
      simp only []
      exact lookupKV_update_self d k _ (by rw [hd]; rfl)

theorem pushKV_lookup_other (d : MIData) (k k' : Str) (v : Str) (h : k ≠ k') :
    lookupKV (pushKV d k v) k' = lookupKV d k' := by
  rw [pushKV]
  cases hd : lookupKV d k with
  | none => exact lookupKV_append_other d k' k _ (fun hc => h hc)
  | some x =>
    cases x with
    | str v0 => exact lookupKV_update_other d k k' _ (fun hc => h hc.symm)
    | arr vs => exact lookupKV_update_other d k k' _ (fun hc => h hc.symm)

theorem combineVals_arr (ws : List Str) :
    ∀ a, combineVals (some (MIVal.arr a)) ws = some (MIVal.arr (a ++ ws)) := by
  induction ws with
  | nil => intro a; simp [combineVals]
  | cons w ws ih =>
    intro a
    rw [combineVals, ih]
    simp

theorem combineVals_nil (x : Option MIVal) : combineVals x [] = x := by
  cases x with
  | none => rfl
  | some v => cases v <;> rfl

theorem combineVals_cons (x : Option MIVal) (v : Str) (ws : List Str) :
    combineVals x (v :: ws) =
      combineVals
        (match x with
         | none => some (MIVal.str v)
         | some (MIVal.str v0) => some (MIVal.arr [v0, v])
         | some (MIVal.arr vs) => some (MIVal.arr (vs ++ [v]))) ws := by
  cases x with
  | none => rfl
  | some y => cases y <;> rfl

theorem foldl_pushKV_combine :
    ∀ (entries : List (Str × Str)) (d : MIData) (k : Str),
      lookupKV (entries.foldl (fun d e => pushKV d e.1 e.2) d) k =
        combineVals (lookupKV d k) ((entries.filter (fun e => e.1 = k)).map (fun e => e.2)) := by
  intro entries
  induction entries with
  | nil =>
    intro d k
    rw [List.foldl_nil, List.filter_nil, List.map_nil, combineVals_nil]
  | cons e es ih =>
    intro d k
    rw [List.foldl_cons, List.filter_cons]
    by_cases he : e.1 = k
    · subst he
      rw [if_pos (by simp), List.map_cons, ih, combineVals_cons, ← pushKV_lookup_self]
    · rw [if_neg (by simpa using he), ih, pushKV_lookup_other d e.1 k e.2 he]

theorem buildDataKV_lookup (entries : List (Str × Str)) (k : Str) :
    lookupKV (buildDataKV entries) k =
      match (entries.filter (fun e => e.1 = k)).map (fun e => e.2) with
      | [] => none
      | [v] => some (MIVal.str v)
      | v₁ :: v₂ :: vs => some (MIVal.arr (v₁ :: v₂ :: vs)) := by
  rw [buildDataKV, foldl_pushKV_combine]
  have hnil : lookupKV ([] : MIData) k = none := rfl
  rw [hnil]
  cases (entries.filter (fun e => e.1 = k)).map (fun e => e.2) with
  | nil => rfl
  | cons v ws =>
    rw [combineVals]
    cases ws with
    | nil => rfl
    | cons v2 ws2 =>
      rw [combineVals, combineVals_arr]
      rfl

theorem lookupParsed_cons (e : Str × List MediaInfoSection) (p : MediaInfoParsed) (k : Str) :
    lookupParsed (e :: p) k = if e.1 = k then some e.2 else lookupParsed p k := by
  by_cases he : e.1 = k
  · rw [lookupParsed, List.find?_cons_of_pos _ (by simpa using he), if_pos he]
    rfl
  · rw [lookupParsed, List.find?_cons_of_neg _ (by simpa using he), if_neg he]
    rfl

theorem lookupParsed_append_self (p : MediaInfoParsed) (k : Str) (ss : List MediaInfoSection)
    (h : lookupParsed p k = none) : lookupParsed (p ++ [(k, ss)]) k = some ss := by
  induction p with
  | nil => simp [lookupParsed]
  | cons e p ih =>
    rw [lookupParsed_cons] at h
    rw [List.cons_append, lookupParsed_cons]
    split at h
    · exact absurd h (by simp)
    · next he => rw [if_neg he]; exact ih h

theorem lookupParsed_map_self (p : MediaInfoParsed) (k : Str) (ss : List MediaInfoSection)
    (h : (lookupParsed p k).isSome = true) :
    lookupParsed (p.map (fun e => if e.1 = k then (k, ss) else e)) k = some ss := by
  induction p with
  | nil => simp [lookupParsed] at h
  | cons e p ih =>
    rw [lookupParsed_cons] at h
    rw [List.map_cons]
    by_cases he : e.1 = k
    · rw [if_pos he, lookupParsed_cons, if_pos rfl]
    · rw [if_neg he, lookupParsed_cons, if_neg he]
      rw [if_neg he] at h
      exact ih h

theorem lookupParsed_map_other (p : MediaInfoParsed) (k k' : Str) (ss : List MediaInfoSection)
    (h : k' ≠ k) :
    lookupParsed (p.map (fun e => if e.1 = k then (k, ss) else e)) k' = lookupParsed p k' := by
  induction p with
  | nil => rfl
  | cons e p ih =>
    rw [List.map_cons]
    by_cases he : e.1 = k
    · rw [if_pos he, lookupParsed_cons, lookupParsed_cons,
        if_neg (by simpa using fun hc => h hc.symm), if_neg (by rw [he]; exact fun hc => h hc.symm)]
      exact ih
    · rw [if_neg he, lookupParsed_cons, lookupParsed_cons]
      split
      · rfl
      · exact ih

theorem lookupParsed_append_other (p : MediaInfoParsed) (k k' : Str)
    (ss : List MediaInfoSection) (h : k' ≠ k) :
    lookupParsed (p ++ [(k', ss)]) k = lookupParsed p k := by
  induction p with
  | nil => simp [lookupParsed, List.find?, h]
  | cons e p ih =>
    rw [List.cons_append, lookupParsed_cons, lookupParsed_cons]
    split
    · rfl
    · exact ih

theorem appendParsed_lookup_self (p : MediaInfoParsed) (k : Str) (sec : MediaInfoSection) :
    lookupParsed (appendParsed p k sec) k =
      some ((lookupParsed p k).getD [] ++ [sec]) := by
  rw [appendParsed]
  cases hp : lookupParsed p k with
  | none =>
    simp only [Option.getD_none, List.nil_append]
    exact lookupParsed_append_self p k _ hp
  | some secs =>
    simp only [Option.getD_some]
    exact lookupParsed_map_self p k _ (by rw [hp]; rfl)

theorem appendParsed_lookup_other (p : MediaInfoParsed) (k k' : Str)
    (sec : MediaInfoSection) (h : k' ≠ k) :
    lookupParsed (appendParsed p k sec) k' = lookupParsed p k' := by
  rw [appendParsed]
  cases hp : lookupParsed p k with
  | none => exact lookupParsed_append_other p k' k _ (fun hc => h hc.symm)
  | some secs => exact lookupParsed_map_other p k k' _ h

theorem parsedOf_lookup :
    ∀ (blocks : List MIBlock) (acc : MediaInfoParsed) (base : Str),
      lookupParsed (blocks.foldl (fun a x =>
          appendParsed a (headerParse x.header).1 (sectionOf x)) acc) base =
        (match lookupParsed acc base,
            (blocks.filter (fun x => (headerParse x.header).1 = base)).map sectionOf with
         | none, [] => none
         | none, s :: ss => some (s :: ss)
         | some l, ms => some (l ++ ms)) := by
  intro blocks
  induction blocks with
  | nil =>
    intro acc base
    rw [List.foldl_nil, List.filter_nil, List.map_nil]
    cases lookupParsed acc base with
    | none => rfl
    | some l => simp
  | cons x xs ih =>
    intro acc base
    rw [List.foldl_cons, List.filter_cons]
    by_cases hb : (headerParse x.header).1 = base
    · rw [if_pos (by simpa using hb), List.map_cons, ih, hb, appendParsed_lookup_self]
      cases lookupParsed acc base with
      | none =>
        simp only [Option.getD_none, List.nil_append]
        cases (xs.filter (fun x => (headerParse x.header).1 = base)).map sectionOf with
        | nil => rfl
        | cons s ss => rfl
      | some l =>
        simp only [Option.getD_some]
        cases (xs.filter (fun x => (headerParse x.header).1 = base)).map sectionOf with
        | nil => simp
        | cons s ss => simp
    · rw [if_neg (by simpa using hb), ih, appendParsed_lookup_other _ _ _ _ (fun hc => hb hc.symm)]

theorem keysOf_appendParsed (p : MediaInfoParsed) (k : Str) (sec : MediaInfoSection) :
    keysOf (appendParsed p k sec) = keysOf p ∨
      keysOf (appendParsed p k sec) = keysOf p ++ [k] := by
  rw [appendParsed]
  cases lookupParsed p k with
  | none =>
    right
    rw [keysOf, keysOf, List.map_append]
    rfl
  | some secs =>
    left
    rw [keysOf, keysOf, List.map_map]
    apply List.map_congr_left
    intro e _
    by_cases he : e.1 = k
    · simp [he]
    · simp [he]

theorem mem_keysOf_parsedOf :
    ∀ (blocks : List MIBlock) (acc : MediaInfoParsed) (k : Str),
      k ∈ keysOf (blocks.foldl (fun a x =>
          appendParsed a (headerParse x.header).1 (sectionOf x)) acc) →
      k ∈ keysOf acc ∨ ∃ b ∈ blocks, k = (headerParse b.header).1 := by
  intro blocks
  induction blocks with
  | nil => intro acc k h; exact Or.inl h
  | cons x xs ih =>
    intro acc k h
    rw [List.foldl_cons] at h
    rcases ih _ k h with h2 | h2
    · rcases keysOf_appendParsed acc (headerParse x.header).1 (sectionOf x) with he | he
      · rw [he] at h2
        exact Or.inl h2
      · rw [he] at h2
        rcases List.mem_append.1 h2 with h3 | h3
        · exact Or.inl h3
        · exact Or.inr ⟨x, by simp, by simpa using h3⟩
    · obtain ⟨b, hb, hkb⟩ := h2
      exact Or.inr ⟨b, List.mem_cons_of_mem x hb, hkb⟩

theorem audio_prefix_trans (k : Str) (h : "Audio #".data.isPrefixOf k = true) :
    "Audio".data.isPrefixOf k = true := by
  rw [List.isPrefixOf_iff_prefix] at h ⊢
  exact List.IsPrefix.trans (by decide) h

theorem headerParse_audio : headerParse "Audio".data = ("Audio".data, none) := by decide

theorem headerParse_audio2 : headerParse "Audio #2".data = ("Audio".data, some 2) := by decide

/-- On a well-formed report with one Audio block, one Audio #2 block and any
other blocks whose base names do not begin with Audio, the parse groups both
sections (in document order) under the base name Audio, the hash suffix of
the second is captured as its index, and the structured audio sequence has
exactly the two records of the two blocks. -/
theorem audio_grouping_main (pre post : List MIBlock) (e₁ e₂ : List (Str × Str))
    (hpre : wfReport pre = true) (hpost : wfReport post = true)
    (hpreA : ∀ b ∈ pre, "Audio".data.isPrefixOf (headerParse b.header).1 = false)
    (hpostA : ∀ b ∈ post, "Audio".data.isPrefixOf (headerParse b.header).1 = false)
    (h₁ : wfBlock ⟨"Audio".data, e₁⟩ = true) (h₂ : wfBlock ⟨"Audio #2".data, e₂⟩ = true) :
    (toStructured (parseMediaInfo (renderReport
        (pre ++ ⟨"Audio".data, e₁⟩ :: ⟨"Audio #2".data, e₂⟩ :: post)))).audio =
      some [mkAudioRec (buildDataKV e₁), mkAudioRec (buildDataKV e₂)] := by
  have hwfall : wfReport (pre ++ ⟨"Audio".data, e₁⟩ :: ⟨"Audio #2".data, e₂⟩ :: post) = true := by
    rw [wfReport, List.all_append, List.all_cons, List.all_cons]
    rw [wfReport] at hpre hpost
    rw [hpre, hpost, h₁, h₂]
    rfl
  rw [parse_render _ hwfall]
  have hlook : lookupParsed
      (parsedOf (pre ++ ⟨"Audio".data, e₁⟩ :: ⟨"Audio #2".data, e₂⟩ :: post)) "Audio".data =
      some [sectionOf ⟨"Audio".data, e₁⟩, sectionOf ⟨"Audio #2".data, e₂⟩] := by
    rw [parsedOf, parsedOf_lookup]
    have hfil : ((pre ++ ⟨"Audio".data, e₁⟩ :: ⟨"Audio #2".data, e₂⟩ :: post).filter
        (fun x => (headerParse x.header).1 = "Audio".data)) =
        [⟨"Audio".data, e₁⟩, ⟨"Audio #2".data, e₂⟩] := by
      rw [List.filter_append, List.filter_cons, List.filter_cons]
      have hprenil : (pre.filter (fun x => (headerParse x.header).1 = "Audio".data)) = [] := by
        apply List.filter_eq_nil_iff.2
        intro b hb
        simp only [decide_eq_true_eq]
        intro hc
        have := hpreA b hb
        rw [hc] at this
        exact absurd this (by decide)
      have hpostnil : (post.filter (fun x => (headerParse x.header).1 = "Audio".data)) = [] := by
        apply List.filter_eq_nil_iff.2
        intro b hb
        simp only [decide_eq_true_eq]
        intro hc
        have := hpostA b hb
        rw [hc] at this
        exact absurd this (by decide)
      rw [hprenil, if_pos (by rfl), if_pos (by rfl), hpostnil]
      rfl
    rw [hfil]
    rfl
  have hkeys : ((keysOf (parsedOf
      (pre ++ ⟨"Audio".data, e₁⟩ :: ⟨"Audio #2".data, e₂⟩ :: post))).filter
      (fun k => "Audio #".data.isPrefixOf k)) = [] := by
    apply List.filter_eq_nil_iff.2
    intro k hk
    rw [parsedOf] at hk
    rcases mem_keysOf_parsedOf _ [] k hk with h | ⟨b, hb, hkb⟩
    · simp [keysOf] at h
    · intro hcon
      rcases List.mem_append.1 hb with hmem | hmem
      · have := hpreA b hmem
        rw [← hkb] at this
        rw [audio_prefix_trans k hcon] at this
        exact absurd this (by decide)
      · rcases List.mem_cons.1 hmem with hmem2 | hmem2
        · subst hmem2
          rw [headerParse_audio] at hkb
          subst hkb
          exact absurd hcon (by decide)
        · rcases List.mem_cons.1 hmem2 with hmem3 | hmem3
          · subst hmem3
            rw [headerParse_audio2] at hkb
            subst hkb
            exact absurd hcon (by decide)
          · have := hpostA b hmem3
            rw [← hkb] at this
            rw [audio_prefix_trans k hcon] at this
            exact absurd this (by decide)
  rw [toStructured]
  simp only [hlook, hkeys, Option.getD_some, List.flatMap_nil, List.append_nil]
  rfl

/-- C5: within one section a key occurring once is stored as a single plain
value and a key occurring more than once is stored as an ordered array of
all its values in first-seen order, never overwriting; the parse of a
rendered report carries exactly these per-block stores, and a concrete
block with a repeated Language key aggregates both values in order. -/
theorem c5_repeated_keys :
    (∀ (entries : List (Str × Str)) (k : Str),
      lookupKV (buildDataKV entries) k =
        match (entries.filter (fun e => e.1 = k)).map (fun e => e.2) with
        | [] => none
        | [v] => some (MIVal.str v)
        | v₁ :: v₂ :: vs => some (MIVal.arr (v₁ :: v₂ :: vs))) ∧
    (∀ bs : List MIBlock, wfReport bs = true →
      parseMediaInfo (renderReport bs) = parsedOf bs) ∧
    parseMediaInfo (renderReport [⟨"Text".data,
        [("Language".data, "English".data), ("Language".data, "Japanese".data),
         ("Format".data, "UTF-8".data)]⟩]) =
      [("Text".data, [⟨"Text".data, "Text".data, none,
        [("Language".data, MIVal.arr ["English".data, "Japanese".data]),
         ("Format".data, MIVal.str "UTF-8".data)]⟩])] :=
  ⟨buildDataKV_lookup, parse_render, by decide⟩

theorem c5_witness :
    wfReport [⟨"Audio".data, [("Format".data, "FLAC".data)]⟩] = true ∧
    parseMediaInfo (renderReport [⟨"Audio".data, [("Format".data, "FLAC".data)]⟩]) =
      parsedOf [⟨"Audio".data, [("Format".data, "FLAC".data)]⟩] :=
  ⟨by decide, c5_repeated_keys.2.1 _ (by decide)⟩

/-- C6: a report with one Audio block and one Audio #2 block (any other
blocks not based on Audio) is parsed and structured into an audio sequence
of exactly two records in document order; the hash suffix is captured as
the second section's index while both sections are grouped under the base
name Audio. -/
theorem c6_audio_grouping :
    (∀ (pre post : List MIBlock) (e₁ e₂ : List (Str × Str)),
      wfReport pre = true → wfReport post = true →
      (∀ b ∈ pre, "Audio".data.isPrefixOf (headerParse b.header).1 = false) →
      (∀ b ∈ post, "Audio".data.isPrefixOf (headerParse b.header).1 = false) →
      wfBlock ⟨"Audio".data, e₁⟩ = true → wfBlock ⟨"Audio #2".data, e₂⟩ = true →
      (toStructured (parseMediaInfo (renderReport
          (pre ++ ⟨"Audio".data, e₁⟩ :: ⟨"Audio #2".data, e₂⟩ :: post)))).audio =
        some [mkAudioRec (buildDataKV e₁), mkAudioRec (buildDataKV e₂)]) ∧
    (sectionOf ⟨"Audio #2".data, ([] : List (Str × Str))⟩).index = some 2 ∧
    (sectionOf ⟨"Audio #2".data, ([] : List (Str × Str))⟩).base = "Audio".data ∧
    (sectionOf ⟨"Audio".data, ([] : List (Str × Str))⟩).base = "Audio".data ∧
    (toStructured (parseMediaInfo (renderReport
        [⟨"General".data, [("Format".data, "Matroska".data)]⟩,
         ⟨"Audio".data, [("Format".data, "FLAC".data)]⟩,
         ⟨"Audio #2".data, [("Format".data, "AAC".data)]⟩]))).audio =
      some [⟨some "FLAC".data, none, none, none, none, none, none⟩,
            ⟨some "AAC".data, none, none, none, none, none, none⟩] :=
  ⟨audio_grouping_main, by decide, by decide, by decide, by decide⟩

theorem c6_witness :
    (toStructured (parseMediaInfo (renderReport
        ([] ++ ⟨"Audio".data, [("Format".data, "FLAC".data)]⟩ ::
          ⟨"Audio #2".data, [("Format".data, "AAC".data)]⟩ :: [])))).audio =
      some [mkAudioRec (buildDataKV [("Format".data, "FLAC".data)]),
            mkAudioRec (buildDataKV [("Format".data, "AAC".data)])] :=
  c6_audio_grouping.1 [] [] _ _ (by decide) (by decide)
    (fun b hb => absurd hb (List.not_mem_nil b))
    (fun b hb => absurd hb (List.not_mem_nil b))
    (by decide) (by decide)
